import Mathlib

/-!
Verification development for the Murasaki translator resilience core.

Each Python component named in the claims is shallowly embedded as executable
Lean definitions translated from the source files:
  * `AdaptiveConcurrency`  — murasaki_flow_v2/utils/adaptive_concurrency.py
  * `LineAligner`          — murasaki_translator/utils/line_aligner.py
  * `PoolProvider`         — murasaki_flow_v2/providers/pool.py
  * `InferenceEngine`      — murasaki_translator/core/engine.py (chat_completion)
  * `LineGate`             — murasaki_translator/main.py (line-count gate)
  * `TextProtector`        — murasaki_translator/core/text_protector.py

Machine floats of the Python code are modelled as exact rationals; Python ints
as `Int`/`Nat`.  Streaming HTTP traffic is abstracted as an outcome oracle per
attempt; regular-expression patterns are abstracted as first-match functions
(`Matcher`), with the concrete regexes used by the claims implemented directly.
-/

namespace Murasaki

/-- Decimal digit characters, as matched by the regex class [0-9]. -/
def isAsciiDigit (c : Char) : Bool :=
  c == '0' || c == '1' || c == '2' || c == '3' || c == '4' ||
  c == '5' || c == '6' || c == '7' || c == '8' || c == '9'

/-- The character for a single decimal digit value (0-9). -/
def digitChar (d : ℕ) : Char := Char.ofNat (48 + d)

/-- Little-endian decimal digits with structural fuel (any `fuel ≥ n`
suffices); agrees with `Nat.digits 10 n`. -/
def decAux : ℕ → ℕ → List ℕ
  | 0, _ => []
  | fuel + 1, n => if n = 0 then [] else n % 10 :: decAux fuel (n / 10)

/-- Decimal rendering of a natural number, as produced by Python `str(n)`. -/
def decChars (n : ℕ) : List Char :=
  if n = 0 then ['0'] else ((decAux n n).reverse).map digitChar

/-- Value of a big-endian list of decimal digit characters, as parsed by
Python `int(s)` on a plain digit string. -/
def digitsVal (ds : List Char) : ℕ := ds.foldl (fun a c => a * 10 + (c.toNat - 48)) 0

namespace AdaptiveConcurrency

/-- Labels returned by `classify_error` (adaptive_concurrency.py, lines 17-27).
The regex matching over the message string is external to the claims, which
quantify over "a message classified as" a given label, so the label itself is
the embedded input. -/
inductive ErrorKind
  | rate_limited
  | server_error
  | network
  | other
deriving DecidableEq, Repr

/-- The mutable fields of an `AdaptiveConcurrency` instance: the (sanitized)
configuration together with `_current`, `_success_streak`, `_success_total`. -/
structure ACState where
  min_limit : ℤ
  max_limit : ℤ
  success_target : ℤ
  warmup_successes : ℤ
  current : ℤ
  success_streak : ℤ
  success_total : ℤ
deriving DecidableEq, Repr

/-- `int(math.ceil(c / 2))` for an integer `c`. -/
def ceilHalf (c : ℤ) : ℤ := ⌈(c : ℚ) / 2⌉

/-- `__post_init__` (lines 38-49): sanitize the bounds and pick the starting
limit (`ceil(max/2)` by default, otherwise the clamped explicit start). -/
def post_init (min0 max0 target warmup : ℤ) (start0 : Option ℤ) : ACState :=
  let m := max 1 min0
  let M := max m max0
  let cur := match start0 with
    | none => max m (ceilHalf M)
    | some s => max m (min s M)
  ⟨m, M, target, warmup, cur, 0, 0⟩

/-- `note_success` (lines 55-69): during warm-up every success increments the
limit (capped at `max_limit`); afterwards `success_target` consecutive
successes are needed per increment. -/
def note_success (st : ACState) : ACState :=
  let total := st.success_total + 1
  if total ≤ st.warmup_successes then
    { st with success_total := total,
              current := if st.current < st.max_limit then st.current + 1 else st.current,
              success_streak := 0 }
  else
    let streak := st.success_streak + 1
    if st.success_target ≤ streak ∧ st.current < st.max_limit then
      { st with success_total := total, current := st.current + 1, success_streak := 0 }
    else
      { st with success_total := total, success_streak := streak }

/-- `note_error` (lines 71-79): reset the streak; halve (rounding up) on a
rate-limit classification, decrement on server/network errors, floor at
`min_limit`; other classifications leave the limit unchanged. -/
def note_error (st : ACState) (kind : ErrorKind) : ACState :=
  let st' := { st with success_streak := 0 }
  match kind with
  | .rate_limited => { st' with current := max st'.min_limit (ceilHalf st'.current) }
  | .server_error => { st' with current := max st'.min_limit (st'.current - 1) }
  | .network => { st' with current := max st'.min_limit (st'.current - 1) }
  | .other => st'

/-- One observable call against the controller. -/
inductive ACOp
  | success
  | error (kind : ErrorKind)
deriving DecidableEq, Repr

/-- Apply one call. -/
def acStep (st : ACState) (op : ACOp) : ACState :=
  match op with
  | .success => note_success st
  | .error k => note_error st k

/-- All intermediate states of a call sequence (including the initial one). -/
def acStates (st : ACState) (ops : List ACOp) : List ACState := ops.scanl acStep st

/-- The controller invariant: sane bounds and a limit inside them. -/
def Inv (st : ACState) : Prop :=
  1 ≤ st.min_limit ∧ st.min_limit ≤ st.current ∧ st.current ≤ st.max_limit

end AdaptiveConcurrency

namespace LineAligner

/-- `[l.strip() for l in lines if l.strip()]` (line_aligner.py, lines 60-61). -/
def stripNonEmpty (lines : List String) : List String :=
  (lines.map String.trim).filter (fun l => l != "")

/-- `min(int(i / ratio), shortN - 1)` where `ratio = longN / shortN` is the
Python float quotient, modelled exactly over ℚ; `int` truncates the
non-negative quotient, i.e. takes the floor. -/
def propIdx (i longN shortN : ℕ) : ℕ :=
  (⌊(i : ℚ) / ((longN : ℚ) / (shortN : ℚ))⌋).toNat

/-- `LineAligner.align` (lines 43-101).  The Python for-loops appending one
pair per index of the longer side are rendered as maps over `List.range`;
`getD` indexing is always in bounds in the branches where it is used. -/
def align (src_lines dst_lines : List String) : List (String × String) :=
  let src := stripNonEmpty src_lines
  let dst := stripNonEmpty dst_lines
  if src.isEmpty && dst.isEmpty then []
  else if dst.isEmpty then src.map (fun s => (s, ""))
  else if src.isEmpty then dst.map (fun d => ("", d))
  else if src.length = dst.length then src.zip dst
  else if dst.length < src.length then
    (List.range src.length).map (fun i =>
      (src.getD i "", dst.getD (min (propIdx i src.length dst.length) (dst.length - 1)) ""))
  else
    (List.range dst.length).map (fun j =>
      (src.getD (min (propIdx j dst.length src.length) (src.length - 1)) "", dst.getD j ""))

end LineAligner

namespace PoolProvider

/-- Python `int(s)` on the strings reachable from `provider_id.split(":", 1)[1]`:
an optional minus sign followed by decimal digits parses, everything else
raises `ValueError` (mapped to `none`).  Accepted spellings with surrounding
whitespace or a plus sign are not produced by `_endpoint_id` and would parse to
the same values, so the dispatch they induce is unchanged. -/
def parseIntZ (s : List Char) : Option ℤ :=
  if s.head? = some '-' then
    if s.tail ≠ [] ∧ s.tail.all isAsciiDigit then some (-(digitsVal s.tail : ℤ)) else none
  else if s ≠ [] ∧ s.all isAsciiDigit then some ((digitsVal s : ℤ)) else none

/-- `_endpoint_id` (pool.py, lines 111-112). -/
def endpoint_id (i : ℕ) : String := "endpoint:" ++ String.mk (decChars i)

/-- `_endpoint_from_request` (pool.py, lines 114-123) for a pool of `n`
endpoint providers.  `provider_id or ""` is the `getD`; dropping the 9
characters of "endpoint:" is `split(":", 1)[1]` since the tag head holds the
only leading colon. -/
def endpoint_from_request (n : ℕ) (provider_id : Option String) : Option ℕ :=
  let pid := provider_id.getD ""
  if pid.data.take 9 = ("endpoint:").data then
    match parseIntZ (pid.data.drop 9) with
    | some idx => if 0 ≤ idx ∧ idx < (n : ℤ) then some idx.toNat else none
    | none => none
  else none

/-- The endpoint index used by `send` (pool.py, lines 140-146): the sticky tag
if it resolves, else a fresh draw (`_pick_endpoint_index`, abstracted as the
`fresh` input since it is a random/round-robin effect). -/
def send_index (n : ℕ) (provider_id : Option String) (fresh : ℕ) : ℕ :=
  match endpoint_from_request n provider_id with
  | some idx => idx
  | none => fresh

end PoolProvider

namespace InferenceEngine

/-- Python `round` to an integer: round-half-to-even. -/
def roundHE (q : ℚ) : ℤ :=
  let f := ⌊q⌋
  if q - f < 1/2 then f
  else if (1 : ℚ)/2 < q - f then f + 1
  else if f % 2 = 0 then f else f + 1

/-- Python `round(x, 2)`. -/
def round2 (q : ℚ) : ℚ := (roundHE (q * 100) : ℚ) / 100

/-- The `while p <= rep_max + 0.05` loop of `chat_completion` (engine.py,
lines 117-120), with structural fuel; `ladderFuel` below always suffices. -/
def ladderLoopF (bound : ℚ) : ℕ → ℚ → List ℚ
  | 0, _ => []
  | fuel + 1, p => if p ≤ bound then round2 p :: ladderLoopF bound fuel (p + 1/10) else []

/-- Enough fuel to run the ladder loop from `p` to completion. -/
def ladderFuel (bound p : ℚ) : ℕ := (⌊(bound - p) * 10⌋ + 1).toNat

/-- The `attempts` list built by `chat_completion` (engine.py, lines 110-120):
`[rep_base]`, extended when `rep_base < rep_max` by `round(second, 2)` for
`second = max(1.2, rep_base + 0.2)` when `second ≤ rep_max`, then
`round(p, 2)` for `p` stepping by 0.1 from `second + 0.1` while
`p ≤ rep_max + 0.05`. -/
def attemptsFor (rep_base rep_max : ℚ) : List ℚ :=
  if rep_base < rep_max then
    rep_base ::
      ((if max (6/5) (rep_base + 1/5) ≤ rep_max
          then [round2 (max (6/5) (rep_base + 1/5))] else []) ++
        ladderLoopF (rep_max + 1/20)
          (ladderFuel (rep_max + 1/20) (max (6/5) (rep_base + 1/5) + 1/10))
          (max (6/5) (rep_base + 1/5) + 1/10))
  else [rep_base]

/-- Observable outcome of one streaming attempt (engine.py, lines 150-291):
the stream finishes cleanly, the repetition guard aborts it, or the HTTP
request / stream consumption raises (a transport error). -/
inductive StreamOutcome
  | ok (text think : String)
  | degen (text think : String)
  | err
deriving DecidableEq, Repr

/-- Lines 271-274: prepend the reasoning channel when non-empty. -/
def renderResult (text think : String) : String :=
  if think ≠ "" then "<think>" ++ think ++ "</think>\n" ++ text else text

/-- The control skeleton of the penalty-escalation loop (engine.py, lines
125-293) over an outcome oracle indexed by attempt number: `remaining` is the
number of attempts after the current one (`0` means `is_final`).  Returns the
final text together with the list of attempt indices actually issued.  A clean
stream returns immediately; a degeneration aborts and escalates unless final
(where the truncated text is returned); a transport error returns empty text
when final and otherwise falls through to the next penalty value. -/
def runFrom (oc : ℕ → StreamOutcome) : ℕ → ℕ → String × List ℕ
  | 0, i =>
    match oc i with
    | .ok t th => (renderResult t th, [i])
    | .degen t th => (renderResult t th, [i])
    | .err => ("", [i])
  | r + 1, i =>
    match oc i with
    | .ok t th => (renderResult t th, [i])
    | .degen _ _ => ((runFrom oc r (i + 1)).1, i :: (runFrom oc r (i + 1)).2)
    | .err => ((runFrom oc r (i + 1)).1, i :: (runFrom oc r (i + 1)).2)

/-- `chat_completion` restricted to its attempt-loop behaviour: run the
penalty ladder for `rep_base`/`rep_max` against the outcome oracle. -/
def chat_completion (rep_base rep_max : ℚ) (oc : ℕ → StreamOutcome) : String × List ℕ :=
  runFrom oc ((attemptsFor rep_base rep_max).length - 1) 0

/-- A concrete outcome oracle: a transport error on the first attempt, a
clean stream afterwards. -/
def errThenOk : ℕ → StreamOutcome :=
  fun n => match n with
    | 0 => .err
    | _ => .ok "X" ""

/-- A concrete outcome oracle: every attempt raises a transport error. -/
def allErr : ℕ → StreamOutcome := fun _ => .err

end InferenceEngine

namespace LineGate

/-- `len([l for l in lines if l.strip()])` (main.py, lines 998-999). -/
def countNonEmpty (lines : List String) : ℕ := (lines.filter (fun l => l.trim != "")).length

/-- The failure condition of the line-count gate (main.py, lines 1005-1008):
`diff > tol_abs or diff / max(1, src) > tol_pct`. -/
def gateFails (srcLines outLines : List String) (tolAbs : ℕ) (tolPct : ℚ) : Bool :=
  let s := countNonEmpty srcLines
  let d := countNonEmpty outLines
  let diff := ((d : ℤ) - (s : ℤ)).natAbs
  decide (tolAbs < diff) || decide (tolPct < (diff : ℚ) / ((max 1 s : ℕ) : ℚ))

/-- The retry loop of main.py (lines 876, 1008-1028) restricted to the line
gate: `remaining` is `max_retries - attempt`; a failing attempt retries while
attempts remain, and the last attempt's output is accepted regardless.
`outs` abstracts the (parsed) model output of each attempt; the glossary gate
is absent and each output is assumed non-empty, matching the code path where
`should_retry` is still false when the line gate runs. -/
def runLineCheck (src : List String) (outs : ℕ → List String) (tolAbs : ℕ) (tolPct : ℚ) :
    ℕ → ℕ → List String × ℕ
  | 0, a => (outs a, a)
  | r + 1, a =>
    if gateFails src (outs a) tolAbs tolPct then runLineCheck src outs tolAbs tolPct r (a + 1)
    else (outs a, a)

/-- Line-gate-driven attempt loop: when line checking is disabled the first
attempt is accepted without evaluating the gate (main.py, line 997). -/
def translateLineChecked (enabled : Bool) (src : List String) (outs : ℕ → List String)
    (tolAbs : ℕ) (tolPct : ℚ) (max_retries : ℕ) : List String × ℕ :=
  if enabled then runLineCheck src outs tolAbs tolPct max_retries 0 else (outs 0, 0)

/-- A concrete attempt oracle: one output line on the first attempt, three
afterwards. -/
def lineOutsDemo : ℕ → List String :=
  fun a => if a = 0 then ["only"] else ["one", "two", "three"]

end LineGate

namespace TextProtector

/-- Texts are lists of characters (Python strings). -/
abbrev Chars := List Char

/-- Whitespace as consumed by the regex `\s*` in the fuzzy placeholder
patterns, restricted to the ASCII escapes; the texts of the development
contain no further Unicode space characters. -/
def isWs (c : Char) : Bool :=
  c == ' ' || c == '\t' || c == '\n' || c == '\r' || c == '\x0b' || c == '\x0c'

/-- The '@' characters: the half-width marker delimiter and its full-width
variant from `_to_mangled_potential`. -/
def isAt (c : Char) : Bool := c == '@' || c == '＠'

/-- Full-width decimal digits (the mangled forms of [0-9]). -/
def isFwDigit (c : Char) : Bool :=
  c == '０' || c == '１' || c == '２' || c == '３' || c == '４' ||
  c == '５' || c == '６' || c == '７' || c == '８' || c == '９'

/-- A character that can take part in no marker and no fuzzy marker variant:
not an '@' form and not a decimal digit in either width. -/
def clean (c : Char) : Bool := !(isAt c) && !(isAsciiDigit c) && !(isFwDigit c)

/-- `_to_mangled_potential` (text_protector.py, lines 154-163) restricted to
the characters occurring in default-format placeholders; the full translation
table also covers letters and further symbols that never appear in a
placeholder. -/
def mangled (c : Char) : Char :=
  if c = '@' then '＠'
  else if c = '0' then '０' else if c = '1' then '１' else if c = '2' then '２'
  else if c = '3' then '３' else if c = '4' then '４' else if c = '5' then '５'
  else if c = '6' then '６' else if c = '7' then '７' else if c = '8' then '８'
  else if c = '9' then '９'
  else c

/-- Membership in the two-character class `[c, mangled c]` built for one
placeholder character (text_protector.py, lines 126-131). -/
def charAlt (p c : Char) : Bool := c == p || c == mangled p

/-- Consume a maximal run of whitespace (the `\s*` of the fuzzy pattern,
which is exact maximal munch here because no class in the pattern contains a
whitespace character); returns the count and the remainder. -/
def skipWs : Chars → ℕ × Chars
  | [] => (0, [])
  | c :: cs => if isWs c then ((skipWs cs).1 + 1, (skipWs cs).2) else (0, c :: cs)

/-- Match the fuzzy pattern built from placeholder characters `ph` at the head
of the text: each character matches its `[char, mangled char]` class and is
followed by `\s*` except for the final character (the non-aggressive form,
lines 125-140); returns the matched length. -/
def fuzzyFrom : Chars → Chars → Option ℕ
  | [], _ => none
  | [_], [] => none
  | [p], c :: _ => if charAlt p c then some 1 else none
  | _ :: _ :: _, [] => none
  | p :: q :: ps, c :: cs =>
    if charAlt p c then
      (fuzzyFrom (q :: ps) (skipWs cs).2).map (fun l => l + (skipWs cs).1 + 1)
    else none

/-- Matched length at the head including the trailing `\s*` that aggressive
cleaning appends after the final placeholder character. -/
def fuzzyLen (aggr : Bool) (ph : Chars) (t : Chars) : Option ℕ :=
  (fuzzyFrom ph t).map (fun l => if aggr then l + (skipWs (t.drop l)).1 else l)

/-- First match of a head-matcher in a text: position and length, scanning
left to right as the regex engine does. -/
def findHit (probe : Chars → Option ℕ) : Chars → Option (ℕ × ℕ)
  | [] => none
  | c :: cs =>
    match probe (c :: cs) with
    | some l => some (0, l)
    | none => (findHit probe cs).map (fun p => (p.1 + 1, p.2))

/-- A pattern abstracted as its first-match function: given a text, the
position and length of the leftmost match, if any. -/
abbrev Matcher := Chars → Option (ℕ × ℕ)

/-- `re.sub` with a stateful replacement callback and structural fuel:
repeatedly take the leftmost match of `m`, feed the matched slice to `f`,
emit its replacement, and continue after the match.  The zero-length/empty
guard is unreachable for well-formed matchers and only serves termination. -/
def subAllF {σ : Type} (m : Matcher) (f : σ → Chars → σ × Chars) :
    ℕ → σ → Chars → σ × Chars
  | 0, st, text => (st, text)
  | fuel + 1, st, text =>
    match m text with
    | none => (st, text)
    | some (s, l) =>
      if s + l = 0 ∨ text = [] then (st, text)
      else
        let fr := f st ((text.drop s).take l)
        let rest := subAllF m f fuel fr.1 (text.drop (s + l))
        (rest.1, text.take s ++ fr.2 ++ rest.2)

/-- `re.sub(pattern, f, text)`: the fuel `text.length + 1` always suffices
because every step consumes at least one character. -/
def subAll {σ : Type} (m : Matcher) (f : σ → Chars → σ × Chars) (st : σ) (text : Chars) :
    σ × Chars :=
  subAllF m f (text.length + 1) st text

/-- The state `protect` threads: the placeholder counter (starting at 1) and
the insertion-ordered replacement map placeholder → original. -/
structure PState where
  counter : ℕ
  repl : List (Chars × Chars)
deriving DecidableEq, Repr

/-- The default-format placeholder `@{index}@` instantiated at index `n`,
i.e. the characters of `"@" + str(n) + "@"`. -/
def marker (n : ℕ) : Chars := '@' :: decChars n ++ ['@']

/-- The deduplication scan of `replace_match` (lines 78-80): the first map
entry whose original equals the matched text, if any. -/
def lookupByOrig (repl : List (Chars × Chars)) (orig : Chars) : Option Chars :=
  (repl.find? (fun p => p.2 == orig)).map (fun p => p.1)

/-- `replace_match` (text_protector.py, lines 75-85): reuse the placeholder of
an equal original, otherwise mint `marker counter`, advance the counter and
append the new map entry. -/
def replaceFn (st : PState) (seg : Chars) : PState × Chars :=
  match lookupByOrig st.repl seg with
  | some ph => (st, ph)
  | none =>
    ({ counter := st.counter + 1, repl := st.repl ++ [(marker st.counter, seg)] },
      marker st.counter)

/-- The enabled body of `protect` (lines 68-92): reset the state, then run
`re.sub(pattern, replace_match, result)` over the ordered pattern list. -/
def protectRun (pats : List Matcher) (text : Chars) : PState × Chars :=
  pats.foldl (fun acc m => subAll m replaceFn acc.1 acc.2) (⟨1, []⟩, text)

/-- A `TextProtector` as configured for the claims: the pattern list, the
`enabled` flag and the `aggressive_cleaning` flag (default format assumed). -/
structure Protector where
  pats : List Matcher
  enabled : Bool
  aggressive : Bool

/-- `protect` (lines 61-92): identity when disabled (the pre-existing state is
left untouched), otherwise the reset-and-substitute run. -/
def protect (pr : Protector) (st : PState) (text : Chars) : PState × Chars :=
  if pr.enabled then protectRun pr.pats text else (st, text)

/-- `re.search(r'(\d+)', placeholder)` (lines 108-109): the first maximal run
of decimal digits.  The placeholders of this development are ASCII, so the
Unicode digits also matched by `\d` cannot occur. -/
def firstDigitRun : Chars → Chars
  | [] => []
  | c :: cs => if isAsciiDigit c then c :: cs.takeWhile isAsciiDigit else firstDigitRun cs

/-- The index extracted for descending-order processing; 0 when the
placeholder holds no digits (lines 107-110). -/
def extractIdx (ph : Chars) : ℕ := digitsVal (firstDigitRun ph)

/-- Stable insertion for descending sort by the extracted index, matching
`items.sort(key=lambda x: x[0], reverse=True)` (line 113). -/
def insertDesc (x : ℕ × Chars × Chars) :
    List (ℕ × Chars × Chars) → List (ℕ × Chars × Chars)
  | [] => [x]
  | y :: ys => if y.1 < x.1 then x :: y :: ys else y :: insertDesc x ys

/-- Stable descending sort by index. -/
def sortDesc (l : List (ℕ × Chars × Chars)) : List (ℕ × Chars × Chars) :=
  l.foldr insertDesc []

/-- One `re.sub(fuzzy_pattern, lambda m: original, result)` pass (line 146);
the replacement callback ignores the match and state. -/
def fuzzyReplace (aggr : Bool) (ph orig : Chars) (text : Chars) : Chars :=
  (subAll (findHit (fuzzyLen aggr ph)) (fun _ _ => ((), orig)) () text).2

/-- The enabled body of `restore` (lines 101-152): build the indexed items,
sort them by index descending, and run one fuzzy replacement pass per item. -/
def restoreRun (aggr : Bool) (repl : List (Chars × Chars)) (text : Chars) : Chars :=
  let items := repl.map (fun p => (extractIdx p.1, p.1, p.2))
  (sortDesc items).foldl (fun acc it => fuzzyReplace aggr it.2.1 it.2.2 acc) text

/-- `restore` (lines 94-152): identity when disabled or when the replacement
map is empty. -/
def restore (pr : Protector) (st : PState) (text : Chars) : Chars :=
  if !pr.enabled || st.repl.isEmpty then text else restoreRun pr.aggressive st.repl text

/-- `restore(protect(T))` over a freshly constructed enabled protector with
the given patterns, default placeholder format and non-aggressive cleaning. -/
def roundtrip (pats : List Matcher) (t : Chars) : Chars :=
  let pr : Protector := ⟨pats, true, false⟩
  let run := protect pr ⟨1, []⟩ t
  restore pr run.1 run.2

/-- No substring of `t` matches the default marker format or any of its fuzzy
variants: the fuzzy scanner finds no hit for any index. -/
def NoMarkerCollision (t : Chars) : Prop :=
  ∀ n : ℕ, findHit (fuzzyLen false (marker n)) t = none

/-- Length of the run of characters other than '}' at the head. -/
def spanNoClose : Chars → ℕ
  | [] => 0
  | c :: cs => if c = '}' then 0 else spanNoClose cs + 1

/-- First-match function of the default pattern `\{[^}]+\}` (a first match is
a '{', a maximal non-empty run of non-'}' characters, then '}'; a shorter run
cannot rescue a failed position because the follow-up character would still
not be '}'). -/
def braceFind : Chars → Option (ℕ × ℕ)
  | [] => none
  | c :: cs =>
    if c = '{' then
      let n := spanNoClose cs
      if 0 < n ∧ (cs.drop n).head? = some '}' then some (0, n + 2)
      else (braceFind cs).map (fun p => (p.1 + 1, p.2))
    else (braceFind cs).map (fun p => (p.1 + 1, p.2))

/-- Lower-case ASCII letters. -/
def isLowerAlpha (c : Char) : Bool := decide ('a' ≤ c) && decide (c ≤ 'z')

/-- Length of the run of lower-case letters at the head. -/
def spanAlpha : Chars → ℕ
  | [] => 0
  | c :: cs => if isLowerAlpha c then spanAlpha cs + 1 else 0

/-- First-match function of the pattern `\{[a-z]+\}`: like `braceFind` with
the run restricted to lower-case letters, so every matched slice consists of
collision-free characters. -/
def braceAlphaFind : Chars → Option (ℕ × ℕ)
  | [] => none
  | c :: cs =>
    if c = '{' then
      let n := spanAlpha cs
      if 0 < n ∧ (cs.drop n).head? = some '}' then some (0, n + 2)
      else (braceAlphaFind cs).map (fun p => (p.1 + 1, p.2))
    else (braceAlphaFind cs).map (fun p => (p.1 + 1, p.2))

/-- First-match function of the anchored pattern `\A\{a\}`: the literal
characters `w` at position 0 only. -/
def litAt (w : Chars) : Matcher :=
  fun t => if w ≠ [] ∧ t.take w.length = w then some (0, w.length) else none

/-- A well-behaved first-match function: matches are non-empty, in bounds,
and consist only of collision-free characters (they protect text that cannot
look like any part of a marker). -/
def ValidMatcher (m : Matcher) : Prop :=
  ∀ t s l, m t = some (s, l) →
    1 ≤ l ∧ s + l ≤ t.length ∧ ∀ c ∈ (t.drop s).take l, clean c = true

/-- The replacement map together with an explicit original function: indices
1..K are present in insertion order under the default-format keys. -/
def ReplOf (f : ℕ → Chars) (K : ℕ) : List (Chars × Chars) :=
  (List.range K).map (fun i => (marker (i + 1), f (i + 1)))

/-- Interleaving invariant: `P` is `T` with some collision-free substrings
replaced by markers of index at most `k` recorded in `repl`; plain characters
are collision-free and marker originals are collision-free. -/
inductive Inter (repl : List (Chars × Chars)) : ℕ → Chars → Chars → Prop
  | nil (k : ℕ) : Inter repl k [] []
  | plain {k : ℕ} {P T : Chars} (c : Char) :
      clean c = true → Inter repl k P T → Inter repl k (c :: P) (c :: T)
  | mark {k : ℕ} {P T : Chars} (n : ℕ) (o : Chars) :
      1 ≤ n → n ≤ k → (marker n, o) ∈ repl → (∀ c ∈ o, clean c = true) →
      Inter repl k P T → Inter repl k (marker n ++ P) (o ++ T)

end TextProtector

/-! ### Theorems -/

namespace AdaptiveConcurrency

theorem ceilHalf_le {c : ℤ} (h : 0 ≤ c) : ceilHalf c ≤ c := by
  have hc : (0 : ℚ) ≤ (c : ℚ) := by exact_mod_cast h
  have hq : ((c : ℚ)) / 2 ≤ (c : ℚ) := by linarith
  calc ceilHalf c = ⌈(c : ℚ) / 2⌉ := rfl
    _ ≤ ⌈(c : ℚ)⌉ := Int.ceil_le_ceil hq
    _ = c := Int.ceil_intCast c

/-- C9: the initializer coerces `min_limit` to `max(1, min_limit)`,
`max_limit` to `max(min_limit, max_limit)`, clamps an explicit `start_limit`
into the bounds, and always starts with `1 ≤ min_limit ≤ current ≤ max_limit`. -/
theorem post_init_sanitized (min0 max0 target warmup : ℤ) (start0 : Option ℤ) :
    (post_init min0 max0 target warmup start0).min_limit = max 1 min0 ∧
    (post_init min0 max0 target warmup start0).max_limit =
      max (post_init min0 max0 target warmup start0).min_limit max0 ∧
    (1 ≤ (post_init min0 max0 target warmup start0).min_limit ∧
      (post_init min0 max0 target warmup start0).min_limit ≤
        (post_init min0 max0 target warmup start0).current ∧
      (post_init min0 max0 target warmup start0).current ≤
        (post_init min0 max0 target warmup start0).max_limit) ∧
    ∀ v, start0 = some v →
      (post_init min0 max0 target warmup start0).current =
        max (post_init min0 max0 target warmup start0).min_limit
          (min v (post_init min0 max0 target warmup start0).max_limit) := by
  have h1 : (1 : ℤ) ≤ max 1 min0 := le_max_left _ _
  have hmM : max 1 min0 ≤ max (max 1 min0) max0 := le_max_left _ _
  cases start0 with
  | none =>
    refine ⟨rfl, rfl, ⟨h1, le_max_left _ _, ?_⟩, ?_⟩
    · have hM0 : (0 : ℤ) ≤ max (max 1 min0) max0 := le_trans (by omega) hmM
      exact max_le hmM (le_trans (ceilHalf_le hM0) le_rfl)
    · intro v hv; cases hv
  | some s =>
    refine ⟨rfl, rfl, ⟨h1, le_max_left _ _, ?_⟩, ?_⟩
    · exact max_le hmM (min_le_right _ _)
    · intro v hv
      cases hv
      rfl

/-- The closed-form sanity facts of `post_init_sanitized` applied at the
concrete configuration `(min_limit := -5, max_limit := 3, start := 100)`. -/
theorem post_init_sanitized_witness :
    (some (100 : ℤ) = some (100 : ℤ)) ∧
    (post_init (-5) 3 2 10 (some 100)).current =
      max (post_init (-5) 3 2 10 (some 100)).min_limit
        (min 100 (post_init (-5) 3 2 10 (some 100)).max_limit) :=
  ⟨rfl, (post_init_sanitized (-5) 3 2 10 (some 100)).2.2.2 100 rfl⟩

theorem inv_post_init (min0 max0 target warmup : ℤ) (start0 : Option ℤ) :
    Inv (post_init min0 max0 target warmup start0) :=
  (post_init_sanitized min0 max0 target warmup start0).2.2.1

theorem inv_acStep (st : ACState) (op : ACOp) (h : Inv st) : Inv (acStep st op) := by
  obtain ⟨h1, h2, h3⟩ := h
  have hmM : st.min_limit ≤ st.max_limit := le_trans h2 h3
  have hch : ceilHalf st.current ≤ st.current := ceilHalf_le (by omega)
  cases op with
  | success =>
    simp only [acStep, note_success]
    split_ifs <;> exact ⟨h1, by dsimp only; omega, by dsimp only; omega⟩
  | error k =>
    cases k with
    | rate_limited => exact ⟨h1, le_max_left _ _, max_le hmM (le_trans hch h3)⟩
    | server_error =>
      exact ⟨h1, le_max_left _ _, max_le hmM (show st.current - 1 ≤ st.max_limit by omega)⟩
    | network =>
      exact ⟨h1, le_max_left _ _, max_le hmM (show st.current - 1 ≤ st.max_limit by omega)⟩
    | other => exact ⟨h1, h2, h3⟩

theorem inv_acStates (ops : List ACOp) :
    ∀ init : ACState, Inv init → ∀ st ∈ acStates init ops, Inv st := by
  induction ops with
  | nil =>
    intro init hinit st hst
    simp only [acStates, List.scanl, List.mem_singleton] at hst
    exact hst ▸ hinit
  | cons op ops ih =>
    intro init hinit st hst
    simp only [acStates, List.scanl, List.mem_cons] at hst
    rcases hst with rfl | hst
    · exact hinit
    · exact ih (acStep init op) (inv_acStep init op hinit) st hst

/-- C3: along any finite success/error call sequence every intermediate state
keeps the limit within `[min_limit, max_limit]`, and a rate-limited error
makes the new limit `max(min_limit, ceil(old_limit / 2))`. -/
theorem limit_bounds_and_rate_halving (min0 max0 target warmup : ℤ) (start0 : Option ℤ)
    (ops : List ACOp) (st : ACState)
    (hst : st ∈ acStates (post_init min0 max0 target warmup start0) ops) :
    (st.min_limit ≤ st.current ∧ st.current ≤ st.max_limit) ∧
    (note_error st .rate_limited).current = max st.min_limit (ceilHalf st.current) := by
  have hinv := inv_acStates ops _ (inv_post_init min0 max0 target warmup start0) st hst
  exact ⟨⟨hinv.2.1, hinv.2.2⟩, rfl⟩

/-- `limit_bounds_and_rate_halving` applied to the state reached after a
success and a rate-limited error from `post_init 2 8 2 10 (some 5)`. -/
theorem limit_bounds_and_rate_halving_witness :
    ((acStep (acStep (post_init 2 8 2 10 (some 5)) .success) (.error .rate_limited)).min_limit ≤
        (acStep (acStep (post_init 2 8 2 10 (some 5)) .success) (.error .rate_limited)).current ∧
      (acStep (acStep (post_init 2 8 2 10 (some 5)) .success) (.error .rate_limited)).current ≤
        (acStep (acStep (post_init 2 8 2 10 (some 5)) .success) (.error .rate_limited)).max_limit) ∧
    (note_error (acStep (acStep (post_init 2 8 2 10 (some 5)) .success) (.error .rate_limited))
          .rate_limited).current =
      max (acStep (acStep (post_init 2 8 2 10 (some 5)) .success) (.error .rate_limited)).min_limit
        (ceilHalf
          (acStep (acStep (post_init 2 8 2 10 (some 5)) .success) (.error .rate_limited)).current) :=
  limit_bounds_and_rate_halving 2 8 2 10 (some 5) [.success, .error .rate_limited]
    (acStep (acStep (post_init 2 8 2 10 (some 5)) .success) (.error .rate_limited))
    (by with_unfolding_all decide)

end AdaptiveConcurrency

namespace LineAligner

theorem getD_map_range {α : Type} (f : ℕ → α) (n i : ℕ) (h : i < n) (d : α) :
    ((List.range n).map f).getD i d = f i := by
  rw [List.getD_eq_getElem?_getD]
  rw [List.getElem?_map]
  rw [List.getElem?_range h]
  rfl

/-- C7: the two proportional-alignment examples hold, and in general, when the
non-blank line counts differ (both sides non-empty), every line `i` of the
longer side is paired with line `min(floor(i / ratio), shorterCount - 1)` of
the shorter side, where `ratio = longerCount / shorterCount`. -/
theorem align_proportional_spec :
    (align ["a", "b", "c"] ["x", "y"] = [("a", "x"), ("b", "x"), ("c", "y")]) ∧
    (align ["a", "b"] ["x", "y", "z", "w"] =
      [("a", "x"), ("a", "y"), ("b", "z"), ("b", "w")]) ∧
    (∀ src_lines dst_lines : List String,
      stripNonEmpty src_lines ≠ [] → stripNonEmpty dst_lines ≠ [] →
      (stripNonEmpty src_lines).length ≠ (stripNonEmpty dst_lines).length →
      (align src_lines dst_lines).length =
        max (stripNonEmpty src_lines).length (stripNonEmpty dst_lines).length ∧
      (∀ i, i < (stripNonEmpty src_lines).length →
        (stripNonEmpty dst_lines).length < (stripNonEmpty src_lines).length →
        (align src_lines dst_lines).getD i ("", "") =
          ((stripNonEmpty src_lines).getD i "",
            (stripNonEmpty dst_lines).getD
              (min (propIdx i (stripNonEmpty src_lines).length
                      (stripNonEmpty dst_lines).length)
                ((stripNonEmpty dst_lines).length - 1)) "")) ∧
      (∀ j, j < (stripNonEmpty dst_lines).length →
        (stripNonEmpty src_lines).length < (stripNonEmpty dst_lines).length →
        (align src_lines dst_lines).getD j ("", "") =
          ((stripNonEmpty src_lines).getD
              (min (propIdx j (stripNonEmpty dst_lines).length
                      (stripNonEmpty src_lines).length)
                ((stripNonEmpty src_lines).length - 1)) "",
            (stripNonEmpty dst_lines).getD j ""))) := by
  refine ⟨by with_unfolding_all decide, by with_unfolding_all decide, ?_⟩
  intro src_lines dst_lines hs hd hne
  have hsE : (stripNonEmpty src_lines).isEmpty = false := by
    simpa [List.isEmpty_iff] using hs
  have hdE : (stripNonEmpty dst_lines).isEmpty = false := by
    simpa [List.isEmpty_iff] using hd
  rcases Nat.lt_or_ge (stripNonEmpty dst_lines).length (stripNonEmpty src_lines).length with
    hlt | hge
  · have halign : align src_lines dst_lines =
        (List.range (stripNonEmpty src_lines).length).map (fun i =>
          ((stripNonEmpty src_lines).getD i "",
            (stripNonEmpty dst_lines).getD
              (min (propIdx i (stripNonEmpty src_lines).length
                      (stripNonEmpty dst_lines).length)
                ((stripNonEmpty dst_lines).length - 1)) "")) := by
      simp only [align, hsE, hdE, Bool.false_and, Bool.false_eq_true, if_false, hne, hlt,
        if_true]
    refine ⟨?_, ?_, ?_⟩
    · simp [halign, Nat.max_eq_left (le_of_lt hlt)]
    · intro i hi _
      rw [halign, getD_map_range _ _ _ hi]
    · intro j _ hgt
      omega
  · have hlt' : (stripNonEmpty src_lines).length < (stripNonEmpty dst_lines).length := by
      omega
    have halign : align src_lines dst_lines =
        (List.range (stripNonEmpty dst_lines).length).map (fun j =>
          ((stripNonEmpty src_lines).getD
              (min (propIdx j (stripNonEmpty dst_lines).length
                      (stripNonEmpty src_lines).length)
                ((stripNonEmpty src_lines).length - 1)) "",
            (stripNonEmpty dst_lines).getD j "")) := by
      simp only [align, hsE, hdE, Bool.false_and, Bool.false_eq_true, if_false, hne,
        Nat.not_lt_of_lt hlt', if_true]
    refine ⟨?_, ?_, ?_⟩
    · simp [halign, Nat.max_eq_right (le_of_lt hlt')]
    · intro i _ hgt
      omega
    · intro j hj _
      rw [halign, getD_map_range _ _ _ hj]

/-- `align_proportional_spec` applied at line lists with counts 3 and 2 and
index 1 of the longer side. -/
theorem align_proportional_spec_witness :
    (align ["a", "b", " ", "c"] ["x", "", "y"]).getD 1 ("", "") =
      ((stripNonEmpty ["a", "b", " ", "c"]).getD 1 "",
        (stripNonEmpty ["x", "", "y"]).getD
          (min (propIdx 1 (stripNonEmpty ["a", "b", " ", "c"]).length
                  (stripNonEmpty ["x", "", "y"]).length)
            ((stripNonEmpty ["x", "", "y"]).length - 1)) "") :=
  ((align_proportional_spec.2.2 ["a", "b", " ", "c"] ["x", "", "y"]
      (by with_unfolding_all decide) (by with_unfolding_all decide)
      (by with_unfolding_all decide)).2.1 1
    (by with_unfolding_all decide) (by with_unfolding_all decide))

end LineAligner

theorem decAux_eq_digits : ∀ fuel n : ℕ, n ≤ fuel → decAux fuel n = Nat.digits 10 n := by
  intro fuel
  induction fuel with
  | zero =>
    intro n hn
    interval_cases n
    simp [decAux]
  | succ fuel ih =>
    intro n hn
    by_cases h0 : n = 0
    · subst h0; simp [decAux]
    · have h1 : 0 < n := Nat.pos_of_ne_zero h0
      have hdiv : n / 10 ≤ fuel := by
        have := Nat.div_lt_self h1 (by norm_num : 1 < 10)
        omega
      simp only [decAux, if_neg h0]
      rw [ih (n / 10) hdiv]
      rw [Nat.digits_def' (by norm_num : 1 < 10) h1]

theorem digitChar_toNat (d : ℕ) (h : d < 10) : (digitChar d).toNat = 48 + d := by
  interval_cases d <;> decide

theorem isAsciiDigit_digitChar (d : ℕ) (h : d < 10) : isAsciiDigit (digitChar d) = true := by
  interval_cases d <;> decide

theorem foldl_map_digitChar : ∀ L : List ℕ, (∀ d ∈ L, d < 10) → ∀ a : ℕ,
    (L.map digitChar).foldl (fun a c => a * 10 + (c.toNat - 48)) a =
      L.foldl (fun a d => a * 10 + d) a := by
  intro L
  induction L with
  | nil => intro _ _; rfl
  | cons d L ih =>
    intro h a
    simp only [List.map_cons, List.foldl_cons]
    rw [digitChar_toNat d (h d (by simp))]
    rw [ih (fun x hx => h x (by simp [hx])) _]
    congr 1
    omega

theorem foldl_reverse_ofDigits : ∀ L : List ℕ,
    L.reverse.foldl (fun a d => a * 10 + d) 0 = Nat.ofDigits 10 L := by
  intro L
  induction L with
  | nil => rfl
  | cons x L ih =>
    simp only [List.reverse_cons, List.foldl_append, List.foldl_cons, List.foldl_nil, ih]
    rw [Nat.ofDigits_cons]
    ring

theorem digitsVal_decChars (n : ℕ) : digitsVal (decChars n) = n := by
  by_cases h0 : n = 0
  · subst h0; decide
  · have hd : decAux n n = Nat.digits 10 n := decAux_eq_digits n n le_rfl
    have hlt : ∀ d ∈ (Nat.digits 10 n).reverse, d < 10 := by
      intro d hdm
      exact Nat.digits_lt_base (by norm_num) (List.mem_reverse.mp hdm)
    unfold digitsVal decChars
    rw [if_neg h0, hd]
    rw [foldl_map_digitChar _ hlt 0]
    rw [foldl_reverse_ofDigits]
    exact Nat.ofDigits_digits 10 n

theorem decChars_ne_nil (n : ℕ) : decChars n ≠ [] := by
  by_cases h0 : n = 0
  · subst h0; decide
  · unfold decChars
    rw [if_neg h0]
    rw [decAux_eq_digits n n le_rfl]
    simp [Nat.digits_ne_nil_iff_ne_zero, h0]

theorem decChars_all_digit (n : ℕ) : ∀ c ∈ decChars n, isAsciiDigit c = true := by
  intro c hc
  by_cases h0 : n = 0
  · subst h0
    rw [show decChars 0 = ['0'] from rfl] at hc
    simp only [List.mem_singleton] at hc
    subst hc
    decide
  · unfold decChars at hc
    rw [if_neg h0, decAux_eq_digits n n le_rfl] at hc
    obtain ⟨d, hdm, rfl⟩ := List.mem_map.mp hc
    exact isAsciiDigit_digitChar d
      (Nat.digits_lt_base (by norm_num) (List.mem_reverse.mp hdm))

theorem decChars_head_digit (n : ℕ) :
    ∃ c cs, decChars n = c :: cs ∧ isAsciiDigit c = true := by
  cases h : decChars n with
  | nil => exact absurd h (decChars_ne_nil n)
  | cons c cs =>
    exact ⟨c, cs, rfl, decChars_all_digit n c (h ▸ List.mem_cons_self c cs)⟩

namespace PoolProvider

theorem parseIntZ_decChars (i : ℕ) : parseIntZ (decChars i) = some (i : ℤ) := by
  obtain ⟨c, cs, hc, hdig⟩ := decChars_head_digit i
  have hall : (decChars i).all isAsciiDigit = true :=
    List.all_eq_true.mpr (decChars_all_digit i)
  have hcm : c ≠ '-' := by
    intro h
    rw [h] at hdig
    exact absurd hdig (by decide)
  unfold parseIntZ
  rw [hc] at hall ⊢
  rw [if_neg (by simp [hcm] : ¬((c :: cs).head? = some '-'))]
  rw [if_pos ⟨List.cons_ne_nil c cs, hall⟩]
  have hv := digitsVal_decChars i
  rw [hc] at hv
  rw [hv]

theorem endpoint_id_data (i : ℕ) :
    (endpoint_id i).data = ("endpoint:").data ++ decChars i := rfl

theorem endpoint_from_request_id (n j : ℕ) :
    endpoint_from_request n (some (endpoint_id j)) =
      if 0 ≤ (j : ℤ) ∧ (j : ℤ) < (n : ℤ) then some ((j : ℤ)).toNat else none := by
  have h1 : List.take 9 (endpoint_id j).data = ("endpoint:").data := by
    rw [endpoint_id_data j, show (9 : ℕ) = ("endpoint:").data.length from rfl, List.take_left]
  have h2 : List.drop 9 (endpoint_id j).data = decChars j := by
    rw [endpoint_id_data j, show (9 : ℕ) = ("endpoint:").data.length from rfl, List.drop_left]
  unfold endpoint_from_request
  simp only [Option.getD_some, h1, h2, parseIntZ_decChars, if_true]

/-- C8: a sticky tag `endpoint:i` with `i < n` makes `send` dispatch to
endpoint `i`; when the tag is absent, malformed, or out of range, resolution
yields `none` and `send` falls back to a fresh draw instead of failing. -/
theorem sticky_resolution (n i fresh : ℕ) (hi : i < n) :
    send_index n (some (endpoint_id i)) fresh = i ∧
    (∀ pid, endpoint_from_request n pid = none → send_index n pid fresh = fresh) ∧
    endpoint_from_request n none = none ∧
    endpoint_from_request n (some "endpoint:x7") = none ∧
    (∀ j, n ≤ j → endpoint_from_request n (some (endpoint_id j)) = none) := by
  refine ⟨?_, ?_, rfl, rfl, ?_⟩
  · unfold send_index
    rw [endpoint_from_request_id n i]
    rw [if_pos ⟨Int.natCast_nonneg i, by exact_mod_cast hi⟩]
    simp
  · intro pid h
    unfold send_index
    rw [h]
  · intro j hj
    rw [endpoint_from_request_id n j]
    exact if_neg (fun h => absurd h.2 (not_lt.mpr (by exact_mod_cast hj)))

/-- `sticky_resolution` at a pool of three endpoints, the tag `endpoint:2`
and fresh draw 7. -/
theorem sticky_resolution_witness : send_index 3 (some (endpoint_id 2)) 7 = 2 :=
  (sticky_resolution 3 2 7 (by decide)).1

end PoolProvider

namespace LineGate

theorem runLineCheck_all_fail (src : List String) (outs : ℕ → List String)
    (tolAbs : ℕ) (tolPct : ℚ) :
    ∀ r a, (∀ k, k ≤ r → gateFails src (outs (a + k)) tolAbs tolPct = true) →
      runLineCheck src outs tolAbs tolPct r a = (outs (a + r), a + r) := by
  intro r
  induction r with
  | zero =>
    intro a _
    simp [runLineCheck]
  | succ r ih =>
    intro a h
    have h0 : gateFails src (outs a) tolAbs tolPct = true := by
      have := h 0 (by omega)
      simpa using this
    simp only [runLineCheck, h0, if_true]
    have := ih (a + 1) (fun k hk => by
      have := h (k + 1) (by omega)
      simpa [Nat.add_assoc, Nat.add_comm 1 k] using this)
    have heq : a + 1 + r = a + (r + 1) := by omega
    rw [this, heq]

theorem runLineCheck_first_pass (src : List String) (outs : ℕ → List String)
    (tolAbs : ℕ) (tolPct : ℚ) :
    ∀ j r a, j ≤ r → (∀ k, k < j → gateFails src (outs (a + k)) tolAbs tolPct = true) →
      gateFails src (outs (a + j)) tolAbs tolPct = false →
      runLineCheck src outs tolAbs tolPct r a = (outs (a + j), a + j) := by
  intro j
  induction j with
  | zero =>
    intro r a _ _ hpass
    simp only [Nat.add_zero] at hpass
    cases r with
    | zero => simp [runLineCheck]
    | succ r => simp [runLineCheck, hpass]
  | succ j ih =>
    intro r a hjr hfail hpass
    cases r with
    | zero => omega
    | succ r =>
      have h0 : gateFails src (outs a) tolAbs tolPct = true := by
        have := hfail 0 (by omega)
        simpa using this
      simp only [runLineCheck, h0, if_true]
      have := ih r (a + 1) (by omega)
        (fun k hk => by
          have := hfail (k + 1) (by omega)
          simpa [Nat.add_assoc, Nat.add_comm 1 k] using this)
        (by
          have heq : a + 1 + j = a + (j + 1) := by omega
          rw [heq]
          exact hpass)
      have heq2 : a + 1 + j = a + (j + 1) := by omega
      rw [this, heq2]

/-- C6: with line checking enabled and a contentful attempt, the gate fails
exactly when the absolute difference of non-empty line counts exceeds the
absolute tolerance OR the difference over `max(1, srcCount)` exceeds the
percentage tolerance; a failing attempt retries while attempts remain, the
first passing attempt is accepted, after the budget is exhausted the failing
output is accepted regardless, and a disabled gate accepts the first attempt. -/
theorem line_gate_spec :
    (∀ (srcLines outLines : List String) (tolAbs : ℕ) (tolPct : ℚ),
      gateFails srcLines outLines tolAbs tolPct = true ↔
        (tolAbs < ((countNonEmpty outLines : ℤ) - (countNonEmpty srcLines : ℤ)).natAbs ∨
          tolPct <
            ((((countNonEmpty outLines : ℤ) - (countNonEmpty srcLines : ℤ)).natAbs : ℚ) /
              ((max 1 (countNonEmpty srcLines) : ℕ) : ℚ)))) ∧
    (∀ (src : List String) (outs : ℕ → List String) (tolAbs : ℕ) (tolPct : ℚ) (maxR : ℕ),
      (∀ k, k ≤ maxR → gateFails src (outs k) tolAbs tolPct = true) →
      translateLineChecked true src outs tolAbs tolPct maxR = (outs maxR, maxR)) ∧
    (∀ (src : List String) (outs : ℕ → List String) (tolAbs : ℕ) (tolPct : ℚ) (maxR j : ℕ),
      j ≤ maxR →
      (∀ k, k < j → gateFails src (outs k) tolAbs tolPct = true) →
      gateFails src (outs j) tolAbs tolPct = false →
      translateLineChecked true src outs tolAbs tolPct maxR = (outs j, j)) ∧
    (∀ (src : List String) (outs : ℕ → List String) (tolAbs : ℕ) (tolPct : ℚ) (maxR : ℕ),
      translateLineChecked false src outs tolAbs tolPct maxR = (outs 0, 0)) := by
  refine ⟨?_, ?_, ?_, ?_⟩
  · intro srcLines outLines tolAbs tolPct
    simp [gateFails, Bool.or_eq_true, decide_eq_true_iff]
  · intro src outs tolAbs tolPct maxR h
    have := runLineCheck_all_fail src outs tolAbs tolPct maxR 0 (fun k hk => by
      simpa using h k hk)
    simpa [translateLineChecked] using this
  · intro src outs tolAbs tolPct maxR j hj hfail hpass
    have := runLineCheck_first_pass src outs tolAbs tolPct j maxR 0 hj
      (fun k hk => by simpa using hfail k hk) (by simpa using hpass)
    simpa [translateLineChecked] using this
  · intro src outs tolAbs tolPct maxR
    rfl

/-- `line_gate_spec` at a three-line source with zero tolerances: the first
attempt (one line) fails the gate and the second (three lines) is accepted. -/
theorem line_gate_spec_witness :
    translateLineChecked true ["s1", "s2", "s3"] lineOutsDemo 0 0 2 = (lineOutsDemo 1, 1) :=
  line_gate_spec.2.2.1 ["s1", "s2", "s3"] lineOutsDemo 0 0 2 1 (by decide)
    (fun k hk => by
      interval_cases k
      with_unfolding_all decide)
    (by with_unfolding_all decide)

end LineGate

namespace InferenceEngine

theorem ladderFuel_of_gt {bound p : ℚ} (h : bound < p) : ladderFuel bound p = 0 := by
  have hneg : ⌊(bound - p) * 10⌋ < 0 := Int.floor_lt.mpr (by push_cast; nlinarith)
  unfold ladderFuel
  omega

theorem ladderFuel_succ {bound p : ℚ} (h : p ≤ bound) :
    ladderFuel bound p = ladderFuel bound (p + 1/10) + 1 := by
  have h0 : (0 : ℤ) ≤ ⌊(bound - p) * 10⌋ := Int.floor_nonneg.mpr (by nlinarith)
  have hstep : (bound - (p + 1/10)) * 10 = (bound - p) * 10 - 1 := by ring
  unfold ladderFuel
  rw [hstep]
  rw [show ((1 : ℚ)) = ((1 : ℤ) : ℚ) from by norm_num, Int.floor_sub_int]
  omega

theorem ladderLoopF_closed (bound : ℚ) :
    ∀ fuel p, ladderFuel bound p ≤ fuel →
      ladderLoopF bound fuel p =
        (List.range (ladderFuel bound p)).map (fun k : ℕ => round2 (p + (k : ℚ) / 10)) := by
  intro fuel
  induction fuel with
  | zero =>
    intro p hp
    have h0 : ladderFuel bound p = 0 := by omega
    rw [h0]
    rfl
  | succ fuel ih =>
    intro p hp
    by_cases h : p ≤ bound
    · have hsucc := ladderFuel_succ h
      rw [hsucc]
      simp only [ladderLoopF, if_pos h]
      rw [ih (p + 1/10) (by omega)]
      rw [List.range_succ_eq_map]
      simp only [List.map_cons, List.map_map]
      congr 1
      · norm_num
      · apply List.map_congr_left
        intro k _
        simp only [Function.comp]
        congr 1
        push_cast
        ring
    · rw [ladderFuel_of_gt (not_le.mp h)]
      simp only [ladderLoopF, if_neg h]
      rfl

theorem ladderFuel_mem_iff (bound s : ℚ) (k : ℕ) :
    k < ladderFuel bound s ↔ s + (k : ℚ) / 10 ≤ bound := by
  unfold ladderFuel
  constructor
  · intro hk
    have h1 : (k : ℤ) < ⌊(bound - s) * 10⌋ + 1 := by omega
    have h2 : ((k : ℚ)) ≤ (bound - s) * 10 := by
      have := Int.le_floor.mp (by omega : (k : ℤ) ≤ ⌊(bound - s) * 10⌋)
      exact_mod_cast this
    nlinarith
  · intro hk
    have h2 : ((k : ℚ)) ≤ (bound - s) * 10 := by nlinarith
    have h3 : (k : ℤ) ≤ ⌊(bound - s) * 10⌋ := Int.le_floor.mpr (by exact_mod_cast h2)
    omega

/-- C5 as stated is refuted at `rep_base = 1.234`, `rep_max = 1.5`: the claim
says the second attempted value is `max(1.2, rep_base + 0.2) = 1.434`, but the
code appends `round(1.434, 2) = 1.43`. -/
theorem ladder_counterexample :
    (1234/1000 : ℚ) < 3/2 ∧
    max (6/5 : ℚ) (1234/1000 + 1/5) ≤ 3/2 ∧
    (attemptsFor (1234/1000) (3/2)).getD 1 0 = 143/100 ∧
    (143/100 : ℚ) ≠ max (6/5) (1234/1000 + 1/5) := by
  refine ⟨by norm_num, ?_, ?_, ?_⟩
  · with_unfolding_all decide
  · with_unfolding_all decide
  · with_unfolding_all decide

/-- C5 (amended): the ladder starts with the raw `rep_base`; when
`rep_base < rep_max` it continues with `round(second, 2)` for
`second = max(1.2, rep_base + 0.2)` included exactly when `second ≤ rep_max`,
followed by `round(p, 2)` for `p = second + 0.1 + k·0.1`, one entry per `k`
with `p ≤ rep_max + 0.05` (the index bound `ladderFuel` holds exactly those
`k`); when `rep_base ≥ rep_max` the ladder is `[rep_base]`. -/
theorem ladder_spec (b M : ℚ) :
    (M ≤ b → attemptsFor b M = [b]) ∧
    (b < M → attemptsFor b M =
      b :: ((if max (6/5) (b + 1/5) ≤ M then [round2 (max (6/5) (b + 1/5))] else []) ++
        (List.range (ladderFuel (M + 1/20) (max (6/5) (b + 1/5) + 1/10))).map
          (fun k : ℕ => round2 ((max (6/5) (b + 1/5) + 1/10) + (k : ℚ) / 10)))) ∧
    (∀ s : ℚ, ∀ k : ℕ, k < ladderFuel (M + 1/20) s ↔ s + (k : ℚ) / 10 ≤ M + 1/20) := by
  refine ⟨?_, ?_, fun s k => ladderFuel_mem_iff (M + 1/20) s k⟩
  · intro h
    unfold attemptsFor
    rw [if_neg (not_lt.mpr h)]
  · intro h
    unfold attemptsFor
    rw [if_pos h]
    rw [ladderLoopF_closed (M + 1/20) _ _ le_rfl]

/-- `ladder_spec` at `rep_base = 1`, `rep_max = 1.5`: the attempted values
are `[1, 1.2, 1.3, 1.4, 1.5]`. -/
theorem ladder_spec_witness :
    (1 : ℚ) < 3/2 ∧ attemptsFor 1 (3/2) = [1, 6/5, 13/10, 7/5, 3/2] := by
  refine ⟨by norm_num, ?_⟩
  rw [(ladder_spec 1 (3/2)).2.1 (by norm_num)]
  with_unfolding_all decide

/-- C2 as stated is refuted: with `rep_base = 1`, `rep_max = 1.2` the ladder
holds two attempts; a transport error on the non-final attempt 0 does not
stop the escalation — attempt 1 is still issued and its text is returned,
so the issued-attempt trace is `[0, 1]`, not `[0]`. -/
theorem transport_error_counterexample :
    chat_completion 1 (6/5) errThenOk = ("X", [0, 1]) ∧
    (chat_completion 1 (6/5) errThenOk).2 ≠ [0] := by
  constructor
  · with_unfolding_all decide
  · with_unfolding_all decide

/-- C2 (amended): a transport error on the final attempt makes the loop
return empty text; a transport error on a non-final attempt continues the
escalation with the next penalty value; consequently when every attempt
raises, every attempt is issued and the result is empty text. -/
theorem transport_error_behavior :
    (∀ (oc : ℕ → StreamOutcome) (i : ℕ), oc i = .err → runFrom oc 0 i = ("", [i])) ∧
    (∀ (oc : ℕ → StreamOutcome) (r i : ℕ), oc i = .err →
      runFrom oc (r + 1) i =
        ((runFrom oc r (i + 1)).1, i :: (runFrom oc r (i + 1)).2)) ∧
    (∀ (oc : ℕ → StreamOutcome) (r i : ℕ), (∀ j, oc j = .err) →
      runFrom oc r i = ("", (List.range (r + 1)).map (i + ·))) := by
  refine ⟨?_, ?_, ?_⟩
  · intro oc i h
    simp [runFrom, h]
  · intro oc r i h
    simp [runFrom, h]
  · intro oc r
    induction r with
    | zero =>
      intro i h
      simp [runFrom, h i, List.range_succ]
    | succ r ih =>
      intro i h
      rw [show runFrom oc (r + 1) i =
          ((runFrom oc r (i + 1)).1, i :: (runFrom oc r (i + 1)).2) from by
        simp [runFrom, h i]]
      rw [ih (i + 1) h]
      refine Prod.ext rfl ?_
      conv_rhs => rw [List.range_succ_eq_map]
      simp only [List.map_cons, List.map_map, Nat.add_zero]
      congr 1
      apply List.map_congr_left
      intro k _
      simp only [Function.comp]
      omega

/-- `transport_error_behavior` with two attempts that both raise: both are
issued and the result is empty. -/
theorem transport_error_behavior_witness :
    runFrom allErr 1 0 = ("", (List.range 2).map (0 + ·)) :=
  transport_error_behavior.2.2 allErr 1 0 (fun _ => rfl)

end InferenceEngine

namespace TextProtector

/-- C10: a disabled protector makes `protect` the identity (the carried
state untouched) and `restore` the identity; an enabled `restore` is the
identity as well whenever the replacement map is empty, as after a `protect`
call that matched nothing. -/
theorem disabled_identity :
    (∀ (pats : List Matcher) (aggr : Bool) (st : PState) (t : Chars),
      protect ⟨pats, false, aggr⟩ st t = (st, t)) ∧
    (∀ (pats : List Matcher) (aggr : Bool) (st : PState) (t : Chars),
      restore ⟨pats, false, aggr⟩ st t = t) ∧
    (∀ (pats : List Matcher) (aggr : Bool) (cnt : ℕ) (t : Chars),
      restore ⟨pats, true, aggr⟩ ⟨cnt, []⟩ t = t) :=
  ⟨fun _ _ _ _ => rfl, fun _ _ _ _ => rfl, fun _ _ _ _ => rfl⟩

theorem subAllF_none {σ : Type} (m : Matcher) (f : σ → Chars → σ × Chars)
    (fuel : ℕ) (st : σ) (text : Chars) (hm : m text = none) :
    subAllF m f (fuel + 1) st text = (st, text) := by
  simp [subAllF, hm]

theorem subAllF_guard {σ : Type} (m : Matcher) (f : σ → Chars → σ × Chars)
    (fuel : ℕ) (st : σ) (text : Chars) (s l : ℕ) (hm : m text = some (s, l))
    (hz : s + l = 0 ∨ text = []) :
    subAllF m f (fuel + 1) st text = (st, text) := by
  simp only [subAllF]
  rw [hm]
  exact if_pos hz

theorem subAllF_some {σ : Type} (m : Matcher) (f : σ → Chars → σ × Chars)
    (fuel : ℕ) (st : σ) (text : Chars) (s l : ℕ) (hm : m text = some (s, l))
    (hnz : ¬(s + l = 0 ∨ text = [])) :
    subAllF m f (fuel + 1) st text =
      ((subAllF m f fuel (f st ((text.drop s).take l)).1 (text.drop (s + l))).1,
        text.take s ++ (f st ((text.drop s).take l)).2 ++
          (subAllF m f fuel (f st ((text.drop s).take l)).1 (text.drop (s + l))).2) := by
  simp only [subAllF]
  rw [hm]
  exact if_neg hnz

theorem subAllF_preserves {σ : Type} (m : Matcher) (f : σ → Chars → σ × Chars)
    (P : σ → Prop) (hf : ∀ st seg, P st → P (f st seg).1) :
    ∀ (fuel : ℕ) (st : σ) (text : Chars), P st → P (subAllF m f fuel st text).1 := by
  intro fuel
  induction fuel with
  | zero => intro st text h; exact h
  | succ fuel ih =>
    intro st text h
    cases hm : m text with
    | none => rw [subAllF_none m f fuel st text hm]; exact h
    | some sl =>
      obtain ⟨s, l⟩ := sl
      by_cases hz : s + l = 0 ∨ text = []
      · rw [subAllF_guard m f fuel st text s l hm hz]; exact h
      · rw [subAllF_some m f fuel st text s l hm hz]
        exact ih _ _ (hf st _ h)

theorem replaceFn_dedup (st : PState) (seg : Chars)
    (h : st.repl.Pairwise (fun a b => a.2 ≠ b.2) ∧ st.counter = st.repl.length + 1) :
    (replaceFn st seg).1.repl.Pairwise (fun a b => a.2 ≠ b.2) ∧
      (replaceFn st seg).1.counter = (replaceFn st seg).1.repl.length + 1 := by
  obtain ⟨hpw, hc⟩ := h
  unfold replaceFn
  cases hl : lookupByOrig st.repl seg with
  | some ph => exact ⟨hpw, hc⟩
  | none =>
    have hfind : st.repl.find? (fun p => p.2 == seg) = none := by
      unfold lookupByOrig at hl
      exact Option.map_eq_none.mp hl
    have hnot : ∀ p ∈ st.repl, p.2 ≠ seg := by
      intro p hp
      have := List.find?_eq_none.mp hfind p hp
      simpa using this
    constructor
    · rw [List.pairwise_append]
      refine ⟨hpw, List.pairwise_singleton _ _, ?_⟩
      intro a ha b hb
      simp only [List.mem_singleton] at hb
      subst hb
      exact hnot a ha
    · simp [hc]

theorem protect_foldl_dedup : ∀ (pats : List Matcher) (acc : PState × Chars),
    (acc.1.repl.Pairwise (fun a b => a.2 ≠ b.2) ∧ acc.1.counter = acc.1.repl.length + 1) →
    ((pats.foldl (fun acc m => subAll m replaceFn acc.1 acc.2) acc).1.repl.Pairwise
        (fun a b => a.2 ≠ b.2) ∧
      (pats.foldl (fun acc m => subAll m replaceFn acc.1 acc.2) acc).1.counter =
        (pats.foldl (fun acc m => subAll m replaceFn acc.1 acc.2) acc).1.repl.length + 1) := by
  intro pats
  induction pats with
  | nil => intro acc h; exact h
  | cons m pats ih =>
    intro acc h
    simp only [List.foldl_cons]
    exact ih _ (subAllF_preserves m replaceFn
      (fun st => st.repl.Pairwise (fun a b => a.2 ≠ b.2) ∧ st.counter = st.repl.length + 1)
      replaceFn_dedup _ acc.1 acc.2 h)

/-- C4: identical matched substrings inside one `protect` call collapse to a
single marker: for every pattern list the replacement map never holds two
entries with the same original and the counter advances exactly once per map
entry; concretely, three occurrences of the substring matched by one pattern,
or two occurrences matched by two different patterns, yield one reused marker
`@1@`, a one-entry map, and a counter advanced once. -/
theorem dedup_single_marker :
    (∀ (pats : List Matcher) (t : Chars),
      (protectRun pats t).1.repl.Pairwise (fun a b => a.2 ≠ b.2) ∧
        (protectRun pats t).1.counter = (protectRun pats t).1.repl.length + 1) ∧
    protectRun [braceFind] (("{a}x{a}y{a}").data) =
      (⟨2, [(marker 1, ("{a}").data)]⟩, ("@1@x@1@y@1@").data) ∧
    protectRun [litAt (("{a}").data), braceFind] (("{a}x{a}").data) =
      (⟨2, [(marker 1, ("{a}").data)]⟩, ("@1@x@1@").data) := by
  refine ⟨?_, by with_unfolding_all decide, by with_unfolding_all decide⟩
  intro pats t
  exact protect_foldl_dedup pats (⟨1, []⟩, t) ⟨List.Pairwise.nil, rfl⟩

/-! Character-class facts used by the round-trip development. -/

theorem ascii_digit_cases {c : Char} (h : isAsciiDigit c = true) :
    c = '0' ∨ c = '1' ∨ c = '2' ∨ c = '3' ∨ c = '4' ∨
    c = '5' ∨ c = '6' ∨ c = '7' ∨ c = '8' ∨ c = '9' := by
  simp only [isAsciiDigit, Bool.or_eq_true, beq_iff_eq] at h
  tauto

theorem clean_not_at {c : Char} (h : clean c = true) : isAt c = false := by
  simp only [clean, Bool.and_eq_true, Bool.not_eq_true'] at h
  exact h.1.1

theorem clean_not_digit {c : Char} (h : clean c = true) : isAsciiDigit c = false := by
  simp only [clean, Bool.and_eq_true, Bool.not_eq_true'] at h
  exact h.1.2

theorem clean_not_fw {c : Char} (h : clean c = true) : isFwDigit c = false := by
  simp only [clean, Bool.and_eq_true, Bool.not_eq_true'] at h
  exact h.2

theorem clean_of_digit_false {c : Char} (h : isAsciiDigit c = true) : clean c = false := by
  simp [clean, h]

theorem charAlt_at_eq_isAt (c : Char) : charAlt '@' c = isAt c := rfl

theorem charAlt_self (p : Char) : charAlt p p = true := by
  simp [charAlt]

theorem isAt_digit_false {d : Char} (hd : isAsciiDigit d = true) : isAt d = false := by
  rcases ascii_digit_cases hd with rfl | rfl | rfl | rfl | rfl | rfl | rfl | rfl | rfl | rfl <;>
    decide

theorem isWs_digit_false {d : Char} (hd : isAsciiDigit d = true) : isWs d = false := by
  rcases ascii_digit_cases hd with rfl | rfl | rfl | rfl | rfl | rfl | rfl | rfl | rfl | rfl <;>
    decide

theorem charAlt_digit_at {d : Char} (hd : isAsciiDigit d = true) : charAlt d '@' = false := by
  rcases ascii_digit_cases hd with rfl | rfl | rfl | rfl | rfl | rfl | rfl | rfl | rfl | rfl <;>
    decide

theorem isFwDigit_mangled {d : Char} (hd : isAsciiDigit d = true) :
    isFwDigit (mangled d) = true := by
  rcases ascii_digit_cases hd with rfl | rfl | rfl | rfl | rfl | rfl | rfl | rfl | rfl | rfl <;>
    decide

theorem charAlt_digit_not {d c : Char} (hd : isAsciiDigit d = true)
    (hc : clean c = true ∨ isAt c = true) : charAlt d c = false := by
  rcases hc with hc | hc
  · have h1 : (c == d) = false := by
      rw [beq_eq_false_iff_ne]
      intro h
      rw [h] at hc
      rw [clean_of_digit_false hd] at hc
      exact Bool.false_ne_true hc
    have h2 : (c == mangled d) = false := by
      rw [beq_eq_false_iff_ne]
      intro h
      have hfw := clean_not_fw hc
      rw [h, isFwDigit_mangled hd] at hfw
      exact absurd hfw (by decide)
    simp [charAlt, h1, h2]
  · simp only [isAt, Bool.or_eq_true, beq_iff_eq] at hc
    rcases hc with rfl | rfl <;>
      rcases ascii_digit_cases hd with rfl | rfl | rfl | rfl | rfl | rfl | rfl | rfl | rfl | rfl <;>
        decide

theorem charAlt_digit_digit {d c : Char} (hd : isAsciiDigit d = true)
    (hc : isAsciiDigit c = true) : charAlt d c = (c == d) := by
  have h2 : (c == mangled d) = false := by
    rw [beq_eq_false_iff_ne]
    intro h
    have hfw := isFwDigit_mangled hd
    rw [← h] at hfw
    rcases ascii_digit_cases hc with rfl | rfl | rfl | rfl | rfl | rfl | rfl | rfl | rfl | rfl <;>
      exact absurd hfw (by decide)
  simp [charAlt, h2]

theorem marker_not_clean (n : ℕ) : ∀ c ∈ marker n, clean c = false := by
  intro c hc
  rw [show marker n = '@' :: (decChars n ++ ['@']) from rfl] at hc
  rcases List.mem_cons.mp hc with rfl | hc
  · decide
  · rcases List.mem_append.mp hc with hc | hc
    · exact clean_of_digit_false (decChars_all_digit n c hc)
    · rcases List.mem_singleton.mp hc with rfl
      decide

/-! Reduction shapes of the fuzzy matcher. -/

theorem fuzzyFrom_nil_text (ph : Chars) : fuzzyFrom ph [] = none := by
  match ph with
  | [] => rfl
  | [p] => rfl
  | p :: q :: ps => rfl

theorem fuzzyFrom_single (p c : Char) (cs : Chars) :
    fuzzyFrom [p] (c :: cs) = if charAlt p c then some 1 else none := rfl

theorem fuzzyFrom_cons_cons (p : Char) (ps : Chars) (hps : ps ≠ []) (c : Char) (cs : Chars) :
    fuzzyFrom (p :: ps) (c :: cs) =
      if charAlt p c then
        (fuzzyFrom ps (skipWs cs).2).map (fun l => l + (skipWs cs).1 + 1)
      else none := by
  match ps, hps with
  | q :: ps', _ => rfl

theorem marker_ne_nil (n : ℕ) : marker n ≠ [] := by
  simp [marker]

theorem marker_tail_ne_nil (n : ℕ) : decChars n ++ ['@'] ≠ [] := by
  simp

theorem fuzzyFrom_marker_head_fail {n : ℕ} {c : Char} (cs : Chars) (hc : isAt c = false) :
    fuzzyFrom (marker n) (c :: cs) = none := by
  rw [show marker n = '@' :: (decChars n ++ ['@']) from rfl]
  rw [fuzzyFrom_cons_cons '@' _ (marker_tail_ne_nil n) c cs]
  rw [charAlt_at_eq_isAt, hc]
  rfl

theorem findHit_none_of_no_at (n : ℕ) :
    ∀ t : Chars, (∀ c ∈ t, isAt c = false) → findHit (fuzzyLen false (marker n)) t = none := by
  intro t
  induction t with
  | nil => intro _; rfl
  | cons c cs ih =>
    intro h
    have h1 : fuzzyFrom (marker n) (c :: cs) = none :=
      fuzzyFrom_marker_head_fail cs (h c (List.mem_cons_self c cs))
    have h2 : fuzzyLen false (marker n) (c :: cs) = none := by
      simp [fuzzyLen, h1]
    simp only [findHit, h2]
    rw [ih (fun x hx => h x (List.mem_cons_of_mem c hx))]
    rfl

/-- C1 as stated is refuted.  `T = "{a} 2 {b}"` contains no substring matching
the marker format `@{index}@` or any fuzzy variant (both require an '@'-form
character, and `T` has none), yet with the default brace pattern
`restore(protect(T)) = "@1{b}2@" ≠ T`: the two markers inserted around the
digit of `T` combine with it into the fuzzy variant `"@ 2 @"` of marker 2,
which the restore pass replaces. -/
theorem roundtrip_counterexample :
    NoMarkerCollision (("{a} 2 {b}").data) ∧
    roundtrip [braceFind] (("{a} 2 {b}").data) ≠ ("{a} 2 {b}").data := by
  constructor
  · intro n
    exact findHit_none_of_no_at n _ (by decide)
  · with_unfolding_all decide

/-! Exact behaviour of the fuzzy matcher on marker-shaped text. -/

theorem skipWs_cons_not_ws {c : Char} (cs : Chars) (h : isWs c = false) :
    skipWs (c :: cs) = (0, c :: cs) := by
  simp [skipWs, h]

theorem skipWs_digits_append (v : Chars) (hv : ∀ c ∈ v, isAsciiDigit c = true) (P : Chars) :
    skipWs (v ++ '@' :: P) = (0, v ++ '@' :: P) := by
  cases v with
  | nil => exact skipWs_cons_not_ws P (by decide)
  | cons d v' =>
    exact skipWs_cons_not_ws _ (isWs_digit_false (hv d (List.mem_cons_self d v')))

theorem fuzzyFrom_self_digits : ∀ ds P : Chars, (∀ c ∈ ds, isAsciiDigit c = true) →
    fuzzyFrom (ds ++ ['@']) (ds ++ '@' :: P) = some (ds.length + 1) := by
  intro ds
  induction ds with
  | nil =>
    intro P _
    rw [show ([] : Chars) ++ ['@'] = ['@'] from rfl, List.nil_append]
    rw [fuzzyFrom_single]
    rw [charAlt_self, if_pos rfl]
    rfl
  | cons d ds ih =>
    intro P h
    have hd : isAsciiDigit d = true := h d (List.mem_cons_self d ds)
    have hds : ∀ c ∈ ds, isAsciiDigit c = true :=
      fun c hc => h c (List.mem_cons_of_mem d hc)
    rw [show (d :: ds) ++ ['@'] = d :: (ds ++ ['@']) from rfl]
    rw [show (d :: ds) ++ '@' :: P = d :: (ds ++ '@' :: P) from rfl]
    rw [fuzzyFrom_cons_cons d _ (by simp) _ _]
    rw [charAlt_self, if_pos rfl]
    rw [skipWs_digits_append ds hds P]
    rw [ih P hds]
    simp [Option.map_some]

theorem fuzzyFrom_digits_ne : ∀ a b P : Chars, a ≠ b →
    (∀ c ∈ a, isAsciiDigit c = true) → (∀ c ∈ b, isAsciiDigit c = true) →
    fuzzyFrom (a ++ ['@']) (b ++ '@' :: P) = none := by
  intro a
  induction a with
  | nil =>
    intro b P hne _ hb
    cases b with
    | nil => exact absurd rfl hne
    | cons e b' =>
      rw [show ([] : Chars) ++ ['@'] = ['@'] from rfl]
      rw [show (e :: b') ++ '@' :: P = e :: (b' ++ '@' :: P) from rfl]
      rw [fuzzyFrom_single]
      rw [charAlt_at_eq_isAt, isAt_digit_false (hb e (List.mem_cons_self e b'))]
      rfl
  | cons d a' ih =>
    intro b P hne ha hb
    have hd : isAsciiDigit d = true := ha d (List.mem_cons_self d a')
    have ha' : ∀ c ∈ a', isAsciiDigit c = true :=
      fun c hc => ha c (List.mem_cons_of_mem d hc)
    cases b with
    | nil =>
      rw [show (d :: a') ++ ['@'] = d :: (a' ++ ['@']) from rfl]
      rw [show ([] : Chars) ++ '@' :: P = '@' :: P from rfl]
      rw [fuzzyFrom_cons_cons d _ (by simp) '@' P]
      rw [charAlt_digit_at hd]
      rfl
    | cons e b' =>
      have hb' : ∀ c ∈ b', isAsciiDigit c = true :=
        fun c hc => hb c (List.mem_cons_of_mem e hc)
      rw [show (d :: a') ++ ['@'] = d :: (a' ++ ['@']) from rfl]
      rw [show (e :: b') ++ '@' :: P = e :: (b' ++ '@' :: P) from rfl]
      rw [fuzzyFrom_cons_cons d _ (by simp) e _]
      by_cases hde : e = d
      · subst hde
        rw [charAlt_self, if_pos rfl]
        rw [skipWs_digits_append b' hb' P]
        rw [ih b' P (fun h => hne (by rw [h])) ha' hb']
        rfl
      · rw [charAlt_digit_digit hd (hb e (List.mem_cons_self e b'))]
        rw [beq_eq_false_iff_ne.mpr hde]
        rfl

theorem decChars_inj {a b : ℕ} (h : decChars a = decChars b) : a = b := by
  have ha := digitsVal_decChars a
  rw [h, digitsVal_decChars b] at ha
  exact ha.symm

theorem marker_append_shape (n : ℕ) (P : Chars) :
    marker n ++ P = '@' :: (decChars n ++ '@' :: P) := by
  simp [marker]

theorem probe_marker_self (k : ℕ) (P : Chars) :
    fuzzyLen false (marker k) (marker k ++ P) = some (marker k).length := by
  have hdig := decChars_all_digit k
  unfold fuzzyLen
  rw [marker_append_shape k P]
  rw [show marker k = '@' :: (decChars k ++ ['@']) from rfl]
  rw [fuzzyFrom_cons_cons '@' _ (marker_tail_ne_nil k) '@' _]
  rw [show charAlt '@' '@' = true from by decide, if_pos rfl]
  rw [skipWs_digits_append (decChars k) hdig P]
  rw [fuzzyFrom_self_digits (decChars k) P hdig]
  simp [marker]

theorem probe_marker_ne (k j : ℕ) (hne : j ≠ k) (P : Chars) :
    fuzzyFrom (marker k) (marker j ++ P) = none := by
  have hdk := decChars_all_digit k
  have hdj := decChars_all_digit j
  have hne' : decChars k ≠ decChars j := fun h => hne (decChars_inj h).symm
  rw [marker_append_shape j P]
  rw [show marker k = '@' :: (decChars k ++ ['@']) from rfl]
  rw [fuzzyFrom_cons_cons '@' _ (marker_tail_ne_nil k) '@' _]
  rw [show charAlt '@' '@' = true from by decide, if_pos rfl]
  rw [skipWs_digits_append (decChars j) hdj P]
  rw [fuzzyFrom_digits_ne (decChars k) (decChars j) P hne' hdk hdj]
  rfl

/-! Structure of one `re.sub` pass around no-match and full-match prefixes. -/

theorem fuzzyFrom_pos (ph : Chars) : ∀ t l, fuzzyFrom ph t = some l → 1 ≤ l := by
  cases ph with
  | nil =>
    intro t l h
    have h0 : fuzzyFrom [] t = none := by cases t <;> rfl
    rw [h0] at h
    exact absurd h (by simp)
  | cons p ps =>
    cases ps with
    | nil =>
      intro t l h
      cases t with
      | nil => simp [fuzzyFrom_nil_text] at h
      | cons c cs =>
        rw [fuzzyFrom_single] at h
        by_cases hc : charAlt p c = true
        · rw [if_pos hc] at h
          injection h with h
          omega
        · rw [if_neg hc] at h
          exact absurd h (by simp)
    | cons q ps' =>
      intro t l h
      cases t with
      | nil => simp [fuzzyFrom_nil_text] at h
      | cons c cs =>
        rw [fuzzyFrom_cons_cons p (q :: ps') (by simp) c cs] at h
        by_cases hc : charAlt p c = true
        · rw [if_pos hc] at h
          obtain ⟨l', _, rfl⟩ := Option.map_eq_some'.mp h
          omega
        · rw [if_neg hc] at h
          exact absurd h (by simp)

theorem probe_pos (aggr : Bool) (ph : Chars) :
    ∀ t l, fuzzyLen aggr ph t = some l → 1 ≤ l := by
  intro t l h
  unfold fuzzyLen at h
  obtain ⟨l', hl', hv⟩ := Option.map_eq_some'.mp h
  have h1 := fuzzyFrom_pos ph t l' hl'
  cases aggr <;> simp at hv <;> omega

theorem findHit_pos (probe : Chars → Option ℕ) (hpos : ∀ t l, probe t = some l → 1 ≤ l) :
    ∀ t s l, findHit probe t = some (s, l) → 1 ≤ l := by
  intro t
  induction t with
  | nil => intro s l h; simp [findHit] at h
  | cons c cs ih =>
    intro s l h
    simp only [findHit] at h
    cases hp : probe (c :: cs) with
    | some l' =>
      rw [hp] at h
      simp only [Option.some.injEq, Prod.mk.injEq] at h
      obtain ⟨-, rfl⟩ := h
      exact hpos _ _ hp
    | none =>
      rw [hp] at h
      simp only [Option.map_eq_some'] at h
      obtain ⟨⟨s', l'⟩, hfind, hv⟩ := h
      simp only [Prod.mk.injEq] at hv
      obtain ⟨-, rfl⟩ := hv
      exact ih s' l' hfind

theorem subAllF_congr {σ : Type} (m : Matcher) (f : σ → Chars → σ × Chars) :
    ∀ (fuel fuel' : ℕ) (st : σ) (text : Chars), text.length < fuel → text.length < fuel' →
      subAllF m f fuel st text = subAllF m f fuel' st text := by
  intro fuel
  induction fuel with
  | zero => intro fuel' st text h _; omega
  | succ fuel ih =>
    intro fuel' st text h h'
    cases fuel' with
    | zero => omega
    | succ fuel'' =>
      cases hm : m text with
      | none => rw [subAllF_none m f fuel st text hm, subAllF_none m f fuel'' st text hm]
      | some sl =>
        obtain ⟨s, l⟩ := sl
        by_cases hz : s + l = 0 ∨ text = []
        · rw [subAllF_guard m f fuel st text s l hm hz,
            subAllF_guard m f fuel'' st text s l hm hz]
        · rw [subAllF_some m f fuel st text s l hm hz,
            subAllF_some m f fuel'' st text s l hm hz]
          push_neg at hz
          obtain ⟨hz1, hz2⟩ := hz
          have hpos := List.length_pos.mpr hz2
          have hd : (text.drop (s + l)).length < fuel := by
            rw [List.length_drop]
            omega
          have hd' : (text.drop (s + l)).length < fuel'' := by
            rw [List.length_drop]
            omega
          rw [ih fuel'' _ _ hd hd']

theorem subAll_cons_none {σ : Type} (probe : Chars → Option ℕ) (f : σ → Chars → σ × Chars)
    (hpos : ∀ t l, probe t = some l → 1 ≤ l) (st : σ) (c : Char) (cs : Chars)
    (h : probe (c :: cs) = none) :
    subAll (findHit probe) f st (c :: cs) =
      ((subAll (findHit probe) f st cs).1, c :: (subAll (findHit probe) f st cs).2) := by
  unfold subAll
  simp only [List.length_cons]
  cases hfind : findHit probe cs with
  | none =>
    have hfind' : findHit probe (c :: cs) = none := by simp [findHit, h, hfind]
    rw [subAllF_none _ _ (cs.length + 1) st (c :: cs) hfind']
    rw [subAllF_none _ _ cs.length st cs hfind]
  | some sl =>
    obtain ⟨s, l⟩ := sl
    have hl : 1 ≤ l := findHit_pos probe hpos cs s l hfind
    have hcs : cs ≠ [] := by
      intro h0
      rw [h0] at hfind
      simp [findHit] at hfind
    have hfind' : findHit probe (c :: cs) = some (s + 1, l) := by simp [findHit, h, hfind]
    rw [subAllF_some _ _ (cs.length + 1) st (c :: cs) (s + 1) l hfind'
      (by push_neg; exact ⟨by omega, by simp⟩)]
    rw [subAllF_some _ _ cs.length st cs s l hfind
      (by push_neg; exact ⟨by omega, hcs⟩)]
    simp only [List.drop_succ_cons, List.take_succ_cons]
    rw [show s + 1 + l = (s + l) + 1 from by omega]
    simp only [List.drop_succ_cons]
    have hfuel : (cs.drop (s + l)).length < cs.length := by
      rw [List.length_drop]
      have := List.length_pos.mpr hcs
      omega
    rw [subAllF_congr (findHit probe) f (cs.length + 1) cs.length
      (f st ((cs.drop s).take l)).1 (cs.drop (s + l)) (by omega) hfuel]
    simp

theorem subAll_chunk_none {σ : Type} (probe : Chars → Option ℕ) (f : σ → Chars → σ × Chars)
    (hpos : ∀ t l, probe t = some l → 1 ≤ l) :
    ∀ (u P : Chars) (st : σ),
      (∀ i, i < u.length → probe (u.drop i ++ P) = none) →
      subAll (findHit probe) f st (u ++ P) =
        ((subAll (findHit probe) f st P).1, u ++ (subAll (findHit probe) f st P).2) := by
  intro u
  induction u with
  | nil =>
    intro P st _
    simp
  | cons c u ih =>
    intro P st h
    have h0 : probe (c :: (u ++ P)) = none := by
      have := h 0 (by simp)
      simpa using this
    rw [show (c :: u) ++ P = c :: (u ++ P) from rfl]
    rw [subAll_cons_none probe f hpos st c (u ++ P) h0]
    rw [ih P st (fun i hi => by
      have := h (i + 1) (by simp only [List.length_cons]; omega)
      simpa using this)]
    rfl

theorem subAll_chunk_hit {σ : Type} (probe : Chars → Option ℕ) (f : σ → Chars → σ × Chars)
    (st : σ) (u P : Chars) (hne : u ≠ [])
    (hu : probe (u ++ P) = some u.length) :
    subAll (findHit probe) f st (u ++ P) =
      ((subAll (findHit probe) f (f st u).1 P).1,
        (f st u).2 ++ (subAll (findHit probe) f (f st u).1 P).2) := by
  have hul : 1 ≤ u.length := by
    cases u with
    | nil => exact absurd rfl hne
    | cons c u' => simp
  have hfind : findHit probe (u ++ P) = some (0, u.length) := by
    cases u with
    | nil => exact absurd rfl hne
    | cons c u' =>
      rw [show (c :: u') ++ P = c :: (u' ++ P) from rfl] at hu ⊢
      simp [findHit, hu]
  unfold subAll
  rw [subAllF_some _ _ ((u ++ P).length) st (u ++ P) 0 u.length hfind
    (by
      push_neg
      refine ⟨by omega, ?_⟩
      cases u with
      | nil => exact absurd rfl hne
      | cons c u' => simp)]
  simp only [List.drop_zero, Nat.zero_add, List.take_left, List.drop_left]
  have hfuel1 : P.length < (u ++ P).length := by
    rw [List.length_append]
    omega
  rw [subAllF_congr (findHit probe) f ((u ++ P).length) (P.length + 1)
    (f st u).1 P hfuel1 (by omega)]
  rfl

theorem fuzzyReplace_nil (ph o : Chars) : fuzzyReplace false ph o [] = [] := rfl

theorem fuzzyReplace_cons_none (ph o : Chars) (c : Char) (cs : Chars)
    (h : fuzzyLen false ph (c :: cs) = none) :
    fuzzyReplace false ph o (c :: cs) = c :: fuzzyReplace false ph o cs := by
  unfold fuzzyReplace
  rw [subAll_cons_none (fuzzyLen false ph) _ (probe_pos false ph) () c cs h]

theorem fuzzyReplace_chunk_none (ph o : Chars) (u P : Chars)
    (h : ∀ i, i < u.length → fuzzyLen false ph (u.drop i ++ P) = none) :
    fuzzyReplace false ph o (u ++ P) = u ++ fuzzyReplace false ph o P := by
  unfold fuzzyReplace
  rw [subAll_chunk_none (fuzzyLen false ph) _ (probe_pos false ph) u P () h]

theorem fuzzyReplace_marker_hit (k : ℕ) (o P : Chars) :
    fuzzyReplace false (marker k) o (marker k ++ P) =
      o ++ fuzzyReplace false (marker k) o P := by
  unfold fuzzyReplace
  rw [subAll_chunk_hit (fuzzyLen false (marker k)) _ () (marker k) P (marker_ne_nil k)
    (probe_marker_self k P)]

/-! Basic facts about the interleaving invariant. -/

theorem skipWs_cons_ws {c : Char} (cs : Chars) (h : isWs c = true) :
    skipWs (c :: cs) = ((skipWs cs).1 + 1, (skipWs cs).2) := by
  simp [skipWs, h]

theorem inter_nil_left {repl : List (Chars × Chars)} {k : ℕ} {T : Chars}
    (h : Inter repl k [] T) : T = [] := by
  cases h
  rfl

theorem inter_zero {repl : List (Chars × Chars)} : ∀ {P T : Chars}, Inter repl 0 P T → P = T := by
  intro P T h
  induction h with
  | nil => rfl
  | plain c hc _ ih => rw [ih]
  | mark n o h1 h2 hmem hoc _ ih => omega

theorem inter_mono {repl repl' : List (Chars × Chars)} {k k' : ℕ} (hk : k ≤ k')
    (hsub : ∀ x ∈ repl, x ∈ repl') :
    ∀ {P T : Chars}, Inter repl k P T → Inter repl' k' P T := by
  intro P T h
  induction h with
  | nil => exact Inter.nil k'
  | plain c hc _ ih => exact Inter.plain c hc ih
  | mark n o h1 h2 hmem hoc _ ih =>
    exact Inter.mark n o h1 (le_trans h2 hk) (hsub _ hmem) hoc ih

theorem inter_append {repl : List (Chars × Chars)} {k : ℕ} :
    ∀ {P1 T1 : Chars}, Inter repl k P1 T1 →
      ∀ {P2 T2 : Chars}, Inter repl k P2 T2 → Inter repl k (P1 ++ P2) (T1 ++ T2) := by
  intro P1 T1 h1
  induction h1 with
  | nil => intro P2 T2 h2; simpa using h2
  | plain c hc _ ih =>
    intro P2 T2 h2
    exact Inter.plain c hc (ih h2)
  | mark n o hn1 hnk hmem hoc _ ih =>
    intro P2 T2 h2
    have := Inter.mark n o hn1 hnk hmem hoc (ih h2)
    simpa [List.append_assoc] using this

theorem inter_plain_prepend {repl : List (Chars × Chars)} {k : ℕ} :
    ∀ u : Chars, (∀ c ∈ u, clean c = true) →
      ∀ {P T : Chars}, Inter repl k P T → Inter repl k (u ++ P) (u ++ T) := by
  intro u
  induction u with
  | nil => intro _ P T h; simpa using h
  | cons c u ih =>
    intro hu P T h
    exact Inter.plain c (hu c (List.mem_cons_self c u))
      (ih (fun x hx => hu x (List.mem_cons_of_mem c hx)) h)

theorem inter_of_clean : ∀ t : Chars, (∀ c ∈ t, clean c = true) →
    ∀ (repl : List (Chars × Chars)) (k : ℕ), Inter repl k t t := by
  intro t
  induction t with
  | nil => intro _ repl k; exact Inter.nil k
  | cons c t ih =>
    intro h repl k
    exact Inter.plain c (h c (List.mem_cons_self c t))
      (ih (fun x hx => h x (List.mem_cons_of_mem c hx)) repl k)

theorem inter_skipWs_head {repl : List (Chars × Chars)} {k : ℕ} :
    ∀ {P T : Chars}, Inter repl k P T →
      ∀ c, ((skipWs P).2).head? = some c → clean c = true ∨ isAt c = true := by
  intro P T h
  induction h with
  | nil => intro c hc; simp [skipWs] at hc
  | plain c' hc' _ ih =>
    intro c hc
    by_cases hw : isWs c' = true
    · rw [skipWs_cons_ws _ hw] at hc
      exact ih c hc
    · rw [skipWs_cons_not_ws _ (by simpa using hw)] at hc
      simp only [List.head?_cons, Option.some.injEq] at hc
      subst hc
      exact Or.inl hc'
  | mark n o h1 h2 hmem hoc _ ih =>
    intro c hc
    rw [marker_append_shape] at hc
    rw [skipWs_cons_not_ws _ (by decide)] at hc
    simp only [List.head?_cons, Option.some.injEq] at hc
    subst hc
    exact Or.inr (by decide)

/-! One fuzzy restore pass on an interleaved text replaces exactly the
occurrences of its marker. -/

theorem probe_after_at_none {repl : List (Chars × Chars)} {k' : ℕ} {P T : Chars}
    (hP : Inter repl k' P T) (kk : ℕ) :
    fuzzyFrom (marker kk) ('@' :: P) = none := by
  obtain ⟨d, ds, hdec, hd⟩ := decChars_head_digit kk
  rw [show marker kk = '@' :: (decChars kk ++ ['@']) from rfl]
  rw [fuzzyFrom_cons_cons '@' _ (marker_tail_ne_nil kk) '@' P]
  rw [show charAlt '@' '@' = true from by decide, if_pos rfl]
  rw [hdec]
  cases hr : (skipWs P).2 with
  | nil =>
    rw [show (d :: ds) ++ ['@'] = d :: (ds ++ ['@']) from rfl]
    rw [fuzzyFrom_nil_text]
    rfl
  | cons c cs =>
    have hc := inter_skipWs_head hP c (by rw [hr]; rfl)
    rw [show (d :: ds) ++ ['@'] = d :: (ds ++ ['@']) from rfl]
    rw [fuzzyFrom_cons_cons d _ (by simp) c cs]
    rw [charAlt_digit_not hd hc]
    rfl

theorem marker_interior_scan (kk : ℕ) (P : Chars)
    (hclose : fuzzyFrom (marker kk) ('@' :: P) = none) :
    ∀ v : Chars, (∀ c ∈ v, isAsciiDigit c = true) →
      ∀ i, i < (v ++ ['@']).length →
        fuzzyFrom (marker kk) ((v ++ ['@']).drop i ++ P) = none := by
  intro v
  induction v with
  | nil =>
    intro _ i hi
    simp only [List.nil_append, List.length_singleton] at hi
    interval_cases i
    simpa using hclose
  | cons d v' ih =>
    intro hv i hi
    cases i with
    | zero =>
      rw [List.drop_zero]
      rw [show ((d :: v') ++ ['@']) ++ P = d :: ((v' ++ ['@']) ++ P) from by simp]
      exact fuzzyFrom_marker_head_fail _ (isAt_digit_false (hv d (List.mem_cons_self d v')))
    | succ i' =>
      rw [show ((d :: v') ++ ['@']).drop (i' + 1) = (v' ++ ['@']).drop i' from rfl]
      refine ih (fun c hc => hv c (List.mem_cons_of_mem d hc)) i' ?_
      simp only [List.length_append, List.length_cons, List.length_singleton] at hi ⊢
      omega

theorem probe_marker_chunk_none {repl : List (Chars × Chars)} {k' : ℕ} {P T : Chars}
    (hP : Inter repl k' P T) (kk n : ℕ) (hne : n ≠ kk) :
    ∀ i, i < (marker n).length → fuzzyLen false (marker kk) ((marker n).drop i ++ P) = none := by
  intro i hi
  have hclose := probe_after_at_none hP kk
  have hint := marker_interior_scan kk P hclose (decChars n) (decChars_all_digit n)
  have hfz : fuzzyFrom (marker kk) ((marker n).drop i ++ P) = none := by
    cases i with
    | zero =>
      rw [List.drop_zero]
      exact probe_marker_ne kk n hne P
    | succ i' =>
      rw [show (marker n).drop (i' + 1) = (decChars n ++ ['@']).drop i' from rfl]
      refine hint i' ?_
      simp only [marker, List.length_cons, List.length_append, List.length_singleton] at hi ⊢
      omega
  simp [fuzzyLen, hfz]

theorem probe_clean_head_none (kk : ℕ) {c : Char} (hc : clean c = true) (cs : Chars) :
    fuzzyLen false (marker kk) (c :: cs) = none := by
  have h := fuzzyFrom_marker_head_fail (n := kk) cs (clean_not_at hc)
  simp [fuzzyLen, h]

theorem inter_fuzzyReplace {repl : List (Chars × Chars)} {k : ℕ}
    (huniq : ∀ o o', (marker k, o) ∈ repl → (marker k, o') ∈ repl → o = o')
    {o : Chars} (ho : (marker k, o) ∈ repl) (hoc : ∀ c ∈ o, clean c = true) :
    ∀ {P T : Chars}, Inter repl k P T →
      Inter repl (k - 1) (fuzzyReplace false (marker k) o P) T := by
  intro P T h
  induction h with
  | nil => rw [fuzzyReplace_nil]; exact Inter.nil _
  | plain c hc hd ih =>
    rw [fuzzyReplace_cons_none _ _ _ _ (probe_clean_head_none k hc _)]
    exact Inter.plain c hc ih
  | mark n o' hn1 hnk hmem ho'c hd ih =>
    by_cases hnk' : n = k
    · subst hnk'
      have ho' : o' = o := huniq o' o hmem ho
      subst ho'
      rw [fuzzyReplace_marker_hit n o' _]
      exact inter_plain_prepend o' hoc ih
    · rw [fuzzyReplace_chunk_none _ _ _ _ (probe_marker_chunk_none hd k n hnk')]
      exact Inter.mark n o' hn1 (by omega) hmem ho'c ih

/-! The descending restore loop over a well-formed replacement map. -/

theorem takeWhile_digits_append : ∀ v : Chars, (∀ c ∈ v, isAsciiDigit c = true) →
    (v ++ ['@']).takeWhile isAsciiDigit = v := by
  intro v
  induction v with
  | nil => intro _; rfl
  | cons d v' ih =>
    intro hv
    rw [show (d :: v') ++ ['@'] = d :: (v' ++ ['@']) from rfl]
    rw [List.takeWhile_cons]
    rw [hv d (List.mem_cons_self d v'), if_pos rfl]
    rw [ih (fun c hc => hv c (List.mem_cons_of_mem d hc))]

theorem firstDigitRun_marker (n : ℕ) : firstDigitRun (marker n) = decChars n := by
  obtain ⟨d, ds, hdec, hd⟩ := decChars_head_digit n
  rw [show marker n = '@' :: (decChars n ++ ['@']) from rfl]
  rw [show firstDigitRun ('@' :: (decChars n ++ ['@'])) =
      firstDigitRun (decChars n ++ ['@']) from by
    simp [firstDigitRun, show isAsciiDigit '@' = false from by decide]]
  rw [hdec]
  rw [show (d :: ds) ++ ['@'] = d :: (ds ++ ['@']) from rfl]
  rw [show firstDigitRun (d :: (ds ++ ['@'])) =
      d :: (ds ++ ['@']).takeWhile isAsciiDigit from by simp [firstDigitRun, hd]]
  rw [takeWhile_digits_append ds (fun c hc =>
    decChars_all_digit n c (hdec ▸ List.mem_cons_of_mem d hc))]

theorem extractIdx_marker (n : ℕ) : extractIdx (marker n) = n := by
  unfold extractIdx
  rw [firstDigitRun_marker n]
  exact digitsVal_decChars n

theorem marker_inj {a b : ℕ} (h : marker a = marker b) : a = b := by
  apply decChars_inj
  have h2 : decChars a ++ ['@'] = decChars b ++ ['@'] := by
    have := congrArg List.tail h
    simpa [marker] using this
  have h3 := congrArg List.reverse h2
  simp only [List.reverse_append, List.reverse_singleton, List.singleton_append,
    List.cons.injEq] at h3
  exact List.reverse_injective h3.2

theorem insertDesc_of_lt (x : ℕ × Chars × Chars) :
    ∀ L : List (ℕ × Chars × Chars), (∀ y ∈ L, x.1 < y.1) → insertDesc x L = L ++ [x] := by
  intro L
  induction L with
  | nil => intro _; rfl
  | cons y L ih =>
    intro h
    rw [show insertDesc x (y :: L) =
        if y.1 < x.1 then x :: y :: L else y :: insertDesc x L from rfl]
    rw [if_neg (by have := h y (List.mem_cons_self y L); omega)]
    rw [ih (fun z hz => h z (List.mem_cons_of_mem y hz))]
    rfl

theorem sortDesc_ascending : ∀ L : List (ℕ × Chars × Chars),
    L.Pairwise (fun a b => a.1 < b.1) → sortDesc L = L.reverse := by
  intro L
  induction L with
  | nil => intro _; rfl
  | cons x L ih =>
    intro h
    rw [show sortDesc (x :: L) = insertDesc x (sortDesc L) from rfl]
    rw [ih (List.Pairwise.of_cons h)]
    rw [insertDesc_of_lt x L.reverse
      (fun y hy => (List.pairwise_cons.mp h).1 y (List.mem_reverse.mp hy))]
    rw [List.reverse_cons]

theorem replOf_items (f : ℕ → Chars) (K : ℕ) :
    (ReplOf f K).map (fun p => (extractIdx p.1, p.1, p.2)) =
      (List.range K).map (fun i => (i + 1, marker (i + 1), f (i + 1))) := by
  unfold ReplOf
  rw [List.map_map]
  apply List.map_congr_left
  intro i _
  simp [Function.comp, extractIdx_marker]

theorem replOf_pairwise (f : ℕ → Chars) (K : ℕ) :
    ((List.range K).map (fun i => (i + 1, marker (i + 1), f (i + 1)))).Pairwise
      (fun a b => a.1 < b.1) := by
  refine List.Pairwise.map _ ?_ (List.pairwise_lt_range K)
  intro a b hab
  simpa using hab

theorem replOf_mem {f : ℕ → Chars} {K n : ℕ} {o : Chars} :
    (marker n, o) ∈ ReplOf f K ↔ 1 ≤ n ∧ n ≤ K ∧ o = f n := by
  unfold ReplOf
  simp only [List.mem_map, List.mem_range]
  constructor
  · rintro ⟨i, hi, heq⟩
    rw [Prod.mk.injEq] at heq
    obtain ⟨h1, h2⟩ := heq
    have hin : i + 1 = n := marker_inj h1
    exact ⟨by omega, by omega, by rw [← h2, hin]⟩
  · rintro ⟨h1, h2, rfl⟩
    exact ⟨n - 1, by omega, by rw [show n - 1 + 1 = n from by omega]⟩

theorem restore_fold_steps (f : ℕ → Chars) (K : ℕ)
    (hclean : ∀ i, 1 ≤ i → i ≤ K → ∀ c ∈ f i, clean c = true) :
    ∀ k, k ≤ K → ∀ P T : Chars, Inter (ReplOf f K) k P T →
      (((List.range k).reverse.map (fun i => (i + 1, marker (i + 1), f (i + 1)))).foldl
          (fun acc it => fuzzyReplace false it.2.1 it.2.2 acc) P) = T := by
  intro k
  induction k with
  | zero =>
    intro _ P T h
    simpa using inter_zero h
  | succ k ih =>
    intro hk P T h
    rw [List.range_succ, List.reverse_append, List.reverse_singleton, List.singleton_append]
    rw [List.map_cons, List.foldl_cons]
    have huniq : ∀ o o', (marker (k + 1), o) ∈ ReplOf f K →
        (marker (k + 1), o') ∈ ReplOf f K → o = o' := by
      intro o o' hm hm'
      rw [(replOf_mem.mp hm).2.2, (replOf_mem.mp hm').2.2]
    have hmem : (marker (k + 1), f (k + 1)) ∈ ReplOf f K :=
      replOf_mem.mpr ⟨by omega, hk, rfl⟩
    have step := inter_fuzzyReplace huniq hmem (hclean (k + 1) (by omega) hk) h
    simp only [Nat.add_sub_cancel] at step
    exact ih (by omega) _ T step

theorem restoreRun_of_inter (f : ℕ → Chars) (K : ℕ)
    (hclean : ∀ i, 1 ≤ i → i ≤ K → ∀ c ∈ f i, clean c = true)
    {P T : Chars} (hP : Inter (ReplOf f K) K P T) :
    restoreRun false (ReplOf f K) P = T := by
  unfold restoreRun
  rw [replOf_items f K]
  show List.foldl (fun acc it => fuzzyReplace false it.2.1 it.2.2 acc) P
    (sortDesc ((List.range K).map (fun i => (i + 1, marker (i + 1), f (i + 1))))) = T
  rw [sortDesc_ascending _ (replOf_pairwise f K)]
  rw [← List.map_reverse]
  exact restore_fold_steps f K hclean K le_rfl P T hP

/-! The protect loop preserves the interleaving invariant. -/

theorem inter_extract {repl : List (Chars × Chars)} {k : ℕ} :
    ∀ {P T : Chars}, Inter repl k P T →
      ∀ A seg B, P = A ++ (seg ++ B) → seg ≠ [] → (∀ c ∈ seg, clean c = true) →
      ∃ Ta Tb, T = Ta ++ (seg ++ Tb) ∧ Inter repl k A Ta ∧ Inter repl k B Tb := by
  intro P T h
  induction h with
  | nil =>
    intro A seg B hP hne _
    have h0 := hP.symm
    rw [List.append_eq_nil, List.append_eq_nil] at h0
    exact absurd h0.2.1 hne
  | plain c hc hd ih =>
    intro A seg B hP hne hcl
    cases A with
    | nil =>
      simp only [List.nil_append] at hP
      cases seg with
      | nil => exact absurd rfl hne
      | cons s seg2 =>
        rw [List.cons_append] at hP
        injection hP with h1 h2
        cases seg2 with
        | nil =>
          simp only [List.nil_append] at h2
          subst h2
          refine ⟨[], _, ?_, Inter.nil _, hd⟩
          simp only [List.nil_append, List.singleton_append, h1]
        | cons s2 seg3 =>
          obtain ⟨Ta, Tb, hT, hA, hB⟩ := ih [] (s2 :: seg3) B (by simpa using h2)
            (by simp) (fun x hx => hcl x (List.mem_cons_of_mem s hx))
          have hTa := inter_nil_left hA
          subst hTa
          refine ⟨[], Tb, ?_, Inter.nil _, hB⟩
          simp only [List.nil_append] at hT ⊢
          rw [hT, h1]
          simp only [List.cons_append]
    | cons a A2 =>
      rw [List.cons_append] at hP
      injection hP with h1 h2
      subst h1
      obtain ⟨Ta, Tb, hT, hA, hB⟩ := ih A2 seg B h2 hne hcl
      exact ⟨c :: Ta, Tb, by rw [hT, List.cons_append], Inter.plain c hc hA, hB⟩
  | mark n o hn1 hnk hmem hoc hd ih =>
    intro A seg B hP hne hcl
    rcases List.append_eq_append_iff.mp hP.symm with ⟨a2, ha1, ha2⟩ | ⟨c2, hc1, hc2⟩
    · cases a2 with
      | nil =>
        rw [List.append_nil] at ha1
        simp only [List.nil_append] at ha2
        obtain ⟨Ta, Tb, hT, hA, hB⟩ := ih [] seg B (by simpa using ha2.symm) hne hcl
        have hTa := inter_nil_left hA
        subst hTa
        simp only [List.nil_append] at hT
        refine ⟨o, Tb, ?_, ?_, hB⟩
        · rw [hT]
        · rw [← ha1]
          have hstep := Inter.mark n o hn1 hnk hmem hoc (Inter.nil _)
          simpa using hstep
      | cons x a3 =>
        exfalso
        cases seg with
        | nil => exact hne rfl
        | cons s seg2 =>
          rw [List.cons_append] at ha2
          injection ha2 with hx _
          have hxm : x ∈ marker n := by
            rw [ha1]
            exact List.mem_append_right A (List.mem_cons_self x a3)
          have hnc := marker_not_clean n x hxm
          rw [← hx] at hnc
          rw [hcl s (List.mem_cons_self s seg2)] at hnc
          exact absurd hnc (by decide)
    · obtain ⟨Ta, Tb, hT, hA, hB⟩ := ih c2 seg B hc2 hne hcl
      refine ⟨o ++ Ta, Tb, ?_, ?_, hB⟩
      · rw [hT, List.append_assoc]
      · rw [hc1]
        exact Inter.mark n o hn1 hnk hmem hoc hA

theorem lookupByOrig_replOf {f : ℕ → Chars} {K : ℕ} {seg ph : Chars}
    (h : lookupByOrig (ReplOf f K) seg = some ph) :
    ∃ j, 1 ≤ j ∧ j ≤ K ∧ ph = marker j ∧ f j = seg := by
  unfold lookupByOrig at h
  obtain ⟨q, hfind, hq1⟩ := Option.map_eq_some'.mp h
  have hqmem := List.mem_of_find?_eq_some hfind
  have hqpred := List.find?_some hfind
  simp only [beq_iff_eq] at hqpred
  unfold ReplOf at hqmem
  simp only [List.mem_map, List.mem_range] at hqmem
  obtain ⟨i, hi, hqe⟩ := hqmem
  refine ⟨i + 1, by omega, by omega, ?_, ?_⟩
  · rw [← hq1, ← hqe]
  · rw [← hqpred, ← hqe]

theorem replOf_subset {f fp : ℕ → Chars} {K Kp : ℕ} (hK : K ≤ Kp)
    (hext : ∀ i, 1 ≤ i → i ≤ K → fp i = f i) :
    ∀ x ∈ ReplOf f K, x ∈ ReplOf fp Kp := by
  intro x hx
  unfold ReplOf at hx
  simp only [List.mem_map, List.mem_range] at hx
  obtain ⟨i, hi, rfl⟩ := hx
  exact replOf_mem.mpr ⟨by omega, by omega, (hext (i + 1) (by omega) (by omega)).symm⟩

theorem replOf_snoc (f : ℕ → Chars) (K : ℕ) (seg : Chars) :
    ReplOf f K ++ [(marker (K + 1), seg)] =
      ReplOf (fun i => if i = K + 1 then seg else f i) (K + 1) := by
  unfold ReplOf
  rw [List.range_succ, List.map_append]
  congr 1
  · apply List.map_congr_left
    intro i hi
    rw [List.mem_range] at hi
    show (marker (i + 1), f (i + 1)) =
      (marker (i + 1), if i + 1 = K + 1 then seg else f (i + 1))
    rw [if_neg (by omega)]
  · simp

theorem protect_subAllF_inv (m : Matcher) (hm : ValidMatcher m) :
    ∀ (fuel : ℕ) (st : PState) (P T : Chars) (K : ℕ) (f : ℕ → Chars),
      st.counter = K + 1 → st.repl = ReplOf f K →
      (∀ i, 1 ≤ i → i ≤ K → ∀ c ∈ f i, clean c = true) →
      Inter (ReplOf f K) K P T →
      ∃ (Kp : ℕ) (fp : ℕ → Chars), K ≤ Kp ∧ (∀ i, 1 ≤ i → i ≤ K → fp i = f i) ∧
        (subAllF m replaceFn fuel st P).1.counter = Kp + 1 ∧
        (subAllF m replaceFn fuel st P).1.repl = ReplOf fp Kp ∧
        (∀ i, 1 ≤ i → i ≤ Kp → ∀ c ∈ fp i, clean c = true) ∧
        Inter (ReplOf fp Kp) Kp (subAllF m replaceFn fuel st P).2 T := by
  intro fuel
  induction fuel with
  | zero =>
    intro st P T K f hc hr hf hI
    exact ⟨K, f, le_rfl, fun _ _ _ => rfl, hc, hr, hf, hI⟩
  | succ fuel ih =>
    intro st P T K f hc hr hf hI
    cases hmP : m P with
    | none =>
      rw [subAllF_none m replaceFn fuel st P hmP]
      exact ⟨K, f, le_rfl, fun _ _ _ => rfl, hc, hr, hf, hI⟩
    | some sl =>
      obtain ⟨s, l⟩ := sl
      obtain ⟨hl1, hsl, hcl⟩ := hm P s l hmP
      have hPne : P ≠ [] := by
        intro hPnil
        rw [hPnil] at hsl
        simp only [List.length_nil] at hsl
        omega
      have hnz : ¬(s + l = 0 ∨ P = []) := by
        push_neg
        exact ⟨by omega, hPne⟩
      rw [subAllF_some m replaceFn fuel st P s l hmP hnz]
      have hdd : (P.drop s).drop l = P.drop (s + l) := by
        rw [List.drop_drop]
      have hsplit : P = P.take s ++ (((P.drop s).take l) ++ P.drop (s + l)) := by
        rw [← hdd, List.take_append_drop, List.take_append_drop]
      have hsegne : (P.drop s).take l ≠ [] := by
        intro h0
        have h1 := congrArg List.length h0
        simp only [List.length_take, List.length_drop, List.length_nil] at h1
        omega
      obtain ⟨Ta, Tb, hT, hIA, hIB⟩ := inter_extract hI (P.take s) ((P.drop s).take l)
        (P.drop (s + l)) hsplit hsegne hcl
      cases hlook : lookupByOrig st.repl ((P.drop s).take l) with
      | some ph =>
        have hrw : replaceFn st ((P.drop s).take l) = (st, ph) := by
          unfold replaceFn
          rw [hlook]
        have e1 : (replaceFn st ((P.drop s).take l)).1 = st := by rw [hrw]
        have e2 : (replaceFn st ((P.drop s).take l)).2 = ph := by rw [hrw]
        rw [hr] at hlook
        obtain ⟨j, hj1, hjK, hphj, hfj⟩ := lookupByOrig_replOf hlook
        rw [e1]
        obtain ⟨Kp, fp, hKK, hext, hcp, hrp, hfp, hIp⟩ :=
          ih st (P.drop (s + l)) Tb K f hc hr hf hIB
        refine ⟨Kp, fp, hKK, hext, hcp, hrp, hfp, ?_⟩
        rw [e2, hT, hphj]
        have hIA2 : Inter (ReplOf fp Kp) Kp (P.take s) Ta :=
          inter_mono hKK (replOf_subset hKK hext) hIA
        have hmark : (marker j, (P.drop s).take l) ∈ ReplOf fp Kp :=
          replOf_mem.mpr ⟨hj1, le_trans hjK hKK, by rw [hext j hj1 hjK, hfj]⟩
        have hstep := inter_append hIA2
          (Inter.mark j ((P.drop s).take l) hj1 (le_trans hjK hKK) hmark hcl hIp)
        simpa [List.append_assoc] using hstep
      | none =>
        have hrw : replaceFn st ((P.drop s).take l) =
            (⟨K + 1 + 1,
              ReplOf (fun i => if i = K + 1 then (P.drop s).take l else f i) (K + 1)⟩,
              marker (K + 1)) := by
          unfold replaceFn
          rw [hlook, hc, hr, replOf_snoc]
        have e1 : (replaceFn st ((P.drop s).take l)).1 =
            ⟨K + 1 + 1,
              ReplOf (fun i => if i = K + 1 then (P.drop s).take l else f i) (K + 1)⟩ := by
          rw [hrw]
        have e2 : (replaceFn st ((P.drop s).take l)).2 = marker (K + 1) := by rw [hrw]
        rw [e1, e2]
        have hfpl : ∀ i, 1 ≤ i → i ≤ K + 1 →
            ∀ c ∈ (if i = K + 1 then (P.drop s).take l else f i), clean c = true := by
          intro i h1 h2 c hcm
          by_cases hiK : i = K + 1
          · rw [if_pos hiK] at hcm
            exact hcl c hcm
          · rw [if_neg hiK] at hcm
            exact hf i h1 (by omega) c hcm
        have hextp : ∀ i, 1 ≤ i → i ≤ K →
            (if i = K + 1 then (P.drop s).take l else f i) = f i := by
          intro i _ h2
          rw [if_neg (by omega)]
        have hIpl : Inter
            (ReplOf (fun i => if i = K + 1 then (P.drop s).take l else f i) (K + 1))
            (K + 1) (P.drop (s + l)) Tb :=
          inter_mono (by omega) (replOf_subset (by omega) (fun i h1 h2 => hextp i h1 h2)) hIB
        obtain ⟨Kp, fp, hKK, hext, hcp, hrp, hfp, hIp⟩ :=
          ih ⟨K + 1 + 1,
              ReplOf (fun i => if i = K + 1 then (P.drop s).take l else f i) (K + 1)⟩
            (P.drop (s + l)) Tb (K + 1)
            (fun i => if i = K + 1 then (P.drop s).take l else f i)
            rfl rfl hfpl hIpl
        have hextK : ∀ i, 1 ≤ i → i ≤ K → fp i = f i := by
          intro i h1 h2
          rw [hext i h1 (by omega)]
          exact hextp i h1 h2
        refine ⟨Kp, fp, by omega, hextK, hcp, hrp, hfp, ?_⟩
        rw [hT]
        have hIA2 : Inter (ReplOf fp Kp) Kp (P.take s) Ta :=
          inter_mono (by omega) (replOf_subset (by omega) hextK) hIA
        have hmark : (marker (K + 1), (P.drop s).take l) ∈ ReplOf fp Kp :=
          replOf_mem.mpr ⟨by omega, by omega, by
            rw [hext (K + 1) (by omega) (by omega), if_pos rfl]⟩
        have hstep := inter_append hIA2
          (Inter.mark (K + 1) ((P.drop s).take l) (by omega) (by omega) hmark hcl hIp)
        simpa [List.append_assoc] using hstep

theorem protect_foldl_inv : ∀ (pats : List Matcher), (∀ m ∈ pats, ValidMatcher m) →
    ∀ (st : PState) (P T : Chars) (K : ℕ) (f : ℕ → Chars),
      st.counter = K + 1 → st.repl = ReplOf f K →
      (∀ i, 1 ≤ i → i ≤ K → ∀ c ∈ f i, clean c = true) →
      Inter (ReplOf f K) K P T →
      ∃ (Kp : ℕ) (fp : ℕ → Chars),
        (pats.foldl (fun acc m => subAll m replaceFn acc.1 acc.2) (st, P)).1.counter = Kp + 1 ∧
        (pats.foldl (fun acc m => subAll m replaceFn acc.1 acc.2) (st, P)).1.repl
          = ReplOf fp Kp ∧
        (∀ i, 1 ≤ i → i ≤ Kp → ∀ c ∈ fp i, clean c = true) ∧
        Inter (ReplOf fp Kp) Kp
          (pats.foldl (fun acc m => subAll m replaceFn acc.1 acc.2) (st, P)).2 T := by
  intro pats
  induction pats with
  | nil =>
    intro _ st P T K f hc hr hf hI
    exact ⟨K, f, hc, hr, hf, hI⟩
  | cons m pats ih =>
    intro hv st P T K f hc hr hf hI
    simp only [List.foldl_cons]
    obtain ⟨K1, f1, _, _, hc1, hr1, hf1, hI1⟩ :=
      protect_subAllF_inv m (hv m (List.mem_cons_self m pats)) (P.length + 1) st P T K f
        hc hr hf hI
    exact ih (fun x hx => hv x (List.mem_cons_of_mem m hx))
      (subAll m replaceFn st P).1 (subAll m replaceFn st P).2 T K1 f1 hc1 hr1 hf1 hI1

theorem protectRun_inv (pats : List Matcher) (hm : ∀ m ∈ pats, ValidMatcher m)
    (t : Chars) (ht : ∀ c ∈ t, clean c = true) :
    ∃ (K : ℕ) (f : ℕ → Chars),
      (protectRun pats t).1.counter = K + 1 ∧
      (protectRun pats t).1.repl = ReplOf f K ∧
      (∀ i, 1 ≤ i → i ≤ K → ∀ c ∈ f i, clean c = true) ∧
      Inter (ReplOf f K) K (protectRun pats t).2 t :=
  protect_foldl_inv pats hm ⟨1, []⟩ t t 0 (fun _ => []) rfl rfl
    (fun i h1 h2 => absurd (le_trans h1 h2) (by omega))
    (inter_of_clean t ht _ 0)

/-! A concrete valid pattern for the round-trip witness. -/

theorem lower_ne {c : Char} (h : isLowerAlpha c = true) (x : Char)
    (hx : isLowerAlpha x = false) : (c == x) = false := by
  simp only [isLowerAlpha, Bool.and_eq_true, decide_eq_true_eq] at h
  simp only [beq_eq_false_iff_ne, ne_eq]
  intro hc
  subst hc
  simp [isLowerAlpha, h.1, h.2] at hx

theorem clean_of_lower {c : Char} (h : isLowerAlpha c = true) : clean c = true := by
  simp only [clean, isAt, isAsciiDigit, isFwDigit,
    lower_ne h '@' (by decide), lower_ne h '＠' (by decide),
    lower_ne h '0' (by decide), lower_ne h '1' (by decide), lower_ne h '2' (by decide),
    lower_ne h '3' (by decide), lower_ne h '4' (by decide), lower_ne h '5' (by decide),
    lower_ne h '6' (by decide), lower_ne h '7' (by decide), lower_ne h '8' (by decide),
    lower_ne h '9' (by decide),
    lower_ne h '０' (by decide), lower_ne h '１' (by decide), lower_ne h '２' (by decide),
    lower_ne h '３' (by decide), lower_ne h '４' (by decide), lower_ne h '５' (by decide),
    lower_ne h '６' (by decide), lower_ne h '７' (by decide), lower_ne h '８' (by decide),
    lower_ne h '９' (by decide)]
  decide

theorem spanAlpha_take : ∀ cs : Chars, ∀ c ∈ cs.take (spanAlpha cs), isLowerAlpha c = true := by
  intro cs
  induction cs with
  | nil => intro c hc; simp at hc
  | cons x cs ih =>
    intro c hc
    rw [show spanAlpha (x :: cs) = if isLowerAlpha x then spanAlpha cs + 1 else 0 from rfl] at hc
    by_cases hx : isLowerAlpha x = true
    · rw [if_pos hx, List.take_succ_cons] at hc
      rcases List.mem_cons.mp hc with h1 | h1
      · rw [h1]; exact hx
      · exact ih c h1
    · rw [if_neg hx] at hc
      simp at hc

theorem head_drop_lt {cs : Chars} {n : ℕ} {c : Char} (h : (cs.drop n).head? = some c) :
    n < cs.length := by
  by_contra hn
  push_neg at hn
  rw [List.drop_eq_nil_of_le hn] at h
  simp at h

theorem braceAlphaFind_shift {c : Char} {cs : Chars} {s l : ℕ}
    (h : (braceAlphaFind cs).map (fun p => (p.1 + 1, p.2)) = some (s, l))
    (ih : ∀ s l, braceAlphaFind cs = some (s, l) →
      1 ≤ l ∧ s + l ≤ cs.length ∧ ∀ x ∈ (cs.drop s).take l, clean x = true) :
    1 ≤ l ∧ s + l ≤ (c :: cs).length ∧ ∀ x ∈ ((c :: cs).drop s).take l, clean x = true := by
  obtain ⟨q, hfind, hpr⟩ := Option.map_eq_some'.mp h
  obtain ⟨s0, l0⟩ := q
  rw [Prod.mk.injEq] at hpr
  obtain ⟨hs, hl⟩ := hpr
  subst hs
  subst hl
  obtain ⟨h1, h2, h3⟩ := ih s0 l0 hfind
  refine ⟨h1, by simp only [List.length_cons]; omega, ?_⟩
  intro x hx
  apply h3 x
  rw [show (c :: cs).drop (s0 + 1) = cs.drop s0 from rfl] at hx
  exact hx

theorem braceAlphaFind_valid : ValidMatcher braceAlphaFind := by
  intro t
  induction t with
  | nil =>
    intro s l h
    simp [braceAlphaFind] at h
  | cons c cs ih =>
    intro s l h
    rw [show braceAlphaFind (c :: cs) =
        if c = '\x7b' then
          (if 0 < spanAlpha cs ∧ (cs.drop (spanAlpha cs)).head? = some '\x7d'
            then some (0, spanAlpha cs + 2)
            else (braceAlphaFind cs).map (fun p => (p.1 + 1, p.2)))
        else (braceAlphaFind cs).map (fun p => (p.1 + 1, p.2)) from rfl] at h
    by_cases hb : c = '\x7b'
    · rw [if_pos hb] at h
      by_cases hg : 0 < spanAlpha cs ∧ (cs.drop (spanAlpha cs)).head? = some '\x7d'
      · rw [if_pos hg] at h
        rw [Option.some.injEq, Prod.mk.injEq] at h
        obtain ⟨hs, hl⟩ := h
        subst hs
        subst hl
        obtain ⟨hn0, hclose⟩ := hg
        have hlen := head_drop_lt hclose
        refine ⟨by omega, by simp only [List.length_cons]; omega, ?_⟩
        intro x hx
        rw [List.drop_zero] at hx
        rw [show (c :: cs).take (spanAlpha cs + 2) = c :: cs.take (spanAlpha cs + 1)
          from rfl] at hx
        have htk : cs.take (spanAlpha cs + 1) = cs.take (spanAlpha cs) ++ ['\x7d'] := by
          rw [List.take_succ]
          rw [show cs[spanAlpha cs]? = some '\x7d' from by
            rw [← List.head?_drop]; exact hclose]
          rfl
        rw [htk, hb] at hx
        rcases List.mem_cons.mp hx with h1 | h1
        · rw [h1]; decide
        · rcases List.mem_append.mp h1 with h2 | h2
          · exact clean_of_lower (spanAlpha_take cs x h2)
          · rw [List.mem_singleton] at h2
            rw [h2]; decide
      · rw [if_neg hg] at h
        exact braceAlphaFind_shift h ih
    · rw [if_neg hb] at h
      exact braceAlphaFind_shift h ih

/-- C1 (amended): for every pattern list whose matchers are valid — every
match is non-empty, lies within the text, and consists only of
collision-free characters (no half- or full-width `@`, no half- or
full-width decimal digit) — and every text `t` all of whose characters are
collision-free, restoring after protecting over one enabled protector with
the default marker format returns `t` exactly: `roundtrip pats t = t`.
The original claim, which assumed only that `t` itself contains no fuzzy
marker match, is refuted by `roundtrip_counterexample`: a digit of `t`
lying between two protected spans merges with the inserted markers into a
fuzzy marker match, so the hypothesis must exclude digits and `@`
characters from the text and from every protected substring. -/
theorem protect_restore_roundtrip_clean (pats : List Matcher)
    (hm : ∀ m ∈ pats, ValidMatcher m) (t : Chars)
    (ht : ∀ c ∈ t, clean c = true) :
    roundtrip pats t = t := by
  obtain ⟨K, f, hc, hr, hf, hI⟩ := protectRun_inv pats hm t ht
  show restore ⟨pats, true, false⟩ (protect ⟨pats, true, false⟩ ⟨1, []⟩ t).1
      (protect ⟨pats, true, false⟩ ⟨1, []⟩ t).2 = t
  rw [show protect ⟨pats, true, false⟩ ⟨1, []⟩ t = protectRun pats t from rfl]
  unfold restore
  rw [show (!(⟨pats, true, false⟩ : Protector).enabled ||
      (protectRun pats t).1.repl.isEmpty) = (protectRun pats t).1.repl.isEmpty from by
    rw [show (⟨pats, true, false⟩ : Protector).enabled = true from rfl]
    rw [Bool.not_true, Bool.false_or]]
  cases K with
  | zero =>
    have hempty : (protectRun pats t).1.repl.isEmpty = true := by
      rw [hr]
      simp [ReplOf]
    rw [hempty, if_pos rfl]
    exact inter_zero hI
  | succ K0 =>
    have hne : (protectRun pats t).1.repl.isEmpty = false := by
      rw [hr]
      simp [ReplOf, List.range_succ]
    rw [hne, if_neg (by simp)]
    rw [hr]
    exact restoreRun_of_inter f (K0 + 1) hf hI

theorem protect_restore_roundtrip_clean_witness :
    (∀ c ∈ ("\x7bab\x7d x \x7bcd\x7d").data, clean c = true) ∧
    roundtrip [braceAlphaFind] (("\x7bab\x7d x \x7bcd\x7d").data) =
      ("\x7bab\x7d x \x7bcd\x7d").data :=
  ⟨by decide, protect_restore_roundtrip_clean [braceAlphaFind]
    (by
      intro m hmem
      rw [List.mem_singleton] at hmem
      rw [hmem]
      exact braceAlphaFind_valid)
    (("\x7bab\x7d x \x7bcd\x7d").data) (by decide)⟩

end TextProtector

end Murasaki
